import Mathlib

/-!
Shallow embedding of the geometry core of the bubble-trim puzzle game
(src/utils/mathUtils.ts, src/game/GameState.ts Board, src/game/shapes/Circle.ts),
together with theorems settling the frozen specification claims.

JavaScript numbers are modelled by real numbers.  The JavaScript remainder
operator `%` (truncated division remainder) is modelled by `jsMod`.
`Math.atan2 y x` is modelled by `Complex.arg ⟨x, y⟩`, which agrees with the
JavaScript convention (range (-π, π], `atan2 0 0 = 0`).  The one place where
IEEE float semantics is observable — a division whose denominator is zero,
which in the source produces `NaN` coordinates whose every comparison is
false — is modelled by an `Option` point that fails every containment test
(see `getLineCircleIntersections`).
-/

/-- A 2-D point, `IPoint` of the source. -/
structure IPoint where
  x : ℝ
  y : ℝ

instance : Inhabited IPoint := ⟨⟨0, 0⟩⟩

/-- A line segment, `ILine` of the source.  The source field `end` is a Lean
keyword, renamed `stop`. -/
structure ILine where
  start : IPoint
  stop : IPoint

/-- A circle together with its identity.  The source keeps arcs pointing at
their owning `Circle` object by reference; the `id` field models that object
identity (arena-index pattern), `center`/`radius` its geometry. -/
structure CircleRef where
  id : ℕ
  center : IPoint
  radius : ℝ

instance : Inhabited CircleRef := ⟨⟨0, ⟨0, 0⟩, 0⟩⟩

noncomputable instance : DecidableEq CircleRef := Classical.decEq _

/-- An arc on a circle, `IArc` of the source: the owning circle plus start and
stop angles in radians (not pre-normalized). -/
structure IArc where
  circle : CircleRef
  startAngle : ℝ
  endAngle : ℝ

instance : Inhabited IArc := ⟨⟨default, 0, 0⟩⟩

noncomputable instance : DecidableEq IArc := Classical.decEq _

/-- The constant `2 * Math.PI` used throughout the source. -/
noncomputable def TWO_PI : ℝ := 2 * Real.pi

/-- Truncation toward zero, the rounding used by the JavaScript `%` operator. -/
noncomputable def truncR (x : ℝ) : ℝ := if 0 ≤ x then (⌊x⌋ : ℝ) else (⌈x⌉ : ℝ)

/-- JavaScript remainder `a % n`: `a - n * trunc (a / n)`. -/
noncomputable def jsMod (a n : ℝ) : ℝ := a - n * truncR (a / n)

/-- The normalization idiom `((a % TWO_PI) + TWO_PI) % TWO_PI` used by the
source to bring an angle into `[0, 2π)`. -/
noncomputable def jsNormalize (a : ℝ) : ℝ := jsMod (jsMod a TWO_PI + TWO_PI) TWO_PI

/-- `Math.atan2 y x`, modelled by the complex argument. -/
noncomputable def atan2 (y x : ℝ) : ℝ := Complex.arg ⟨x, y⟩

/-- `isPointOnArc` of mathUtils.ts: normalize the point angle and the arc
bounds into `[0, 2π)` and test angular containment, wrap-aware. -/
noncomputable def isPointOnArc (p : IPoint) (arc : IArc) : Prop :=
  let c := arc.circle.center
  let angle := atan2 (p.y - c.y) (p.x - c.x)
  let normAngle := jsNormalize angle
  let normStart := jsNormalize arc.startAngle
  let normStop := jsNormalize arc.endAngle
  if normStart < normStop then normStart ≤ normAngle ∧ normAngle ≤ normStop
  else normAngle ≥ normStart ∨ normAngle ≤ normStop

/-- `isPointOnLineSegment` of mathUtils.ts: bounding-box containment inflated
by the fixed tolerance 0.1. -/
noncomputable def isPointOnLineSegment (p : IPoint) (line : ILine) : Prop :=
  (p.x ≥ min line.start.x line.stop.x - 0.1 ∧ p.x ≤ max line.start.x line.stop.x + 0.1) ∧
  (p.y ≥ min line.start.y line.stop.y - 0.1 ∧ p.y ≤ max line.start.y line.stop.y + 0.1)

/-- `getLineCircleIntersections` of mathUtils.ts.  Candidate intersection
points of the segment's supporting line with the circle.  When the segment is
degenerate (`dr * dr = 0`, which forces `D = 0` and `discriminant = 0`) the
source divides `0 / 0`, producing `NaN` coordinates; every later comparison
against a `NaN` coordinate is false in IEEE arithmetic, so such a candidate
can never be accepted.  That candidate is modelled as `none`. -/
noncomputable def getLineCircleIntersections (line : ILine) (circle : CircleRef) :
    List (Option IPoint) :=
  let p1x := line.start.x - circle.center.x
  let p1y := line.start.y - circle.center.y
  let p2x := line.stop.x - circle.center.x
  let p2y := line.stop.y - circle.center.y
  let dx := p2x - p1x
  let dy := p2y - p1y
  let dr := Real.sqrt (dx * dx + dy * dy)
  let D := p1x * p2y - p2x * p1y
  let disc := circle.radius * circle.radius * dr * dr - D * D
  if disc < 0 then []
  else
    let sq := Real.sqrt disc
    let sgn : ℝ := if dy < 0 then -1 else 1
    let pt1 : Option IPoint :=
      if dr * dr = 0 then none
      else some ⟨(D * dy + sgn * dx * sq) / (dr * dr) + circle.center.x,
                 (-D * dx + |dy| * sq) / (dr * dr) + circle.center.y⟩
    if 0 < disc then
      let pt2 : Option IPoint :=
        if dr * dr = 0 then none
        else some ⟨(D * dy - sgn * dx * sq) / (dr * dr) + circle.center.x,
                   (-D * dx - |dy| * sq) / (dr * dr) + circle.center.y⟩
      [pt1, pt2]
    else [pt1]

/-- `lineIntersectsArc` of mathUtils.ts: some candidate point lies on both the
segment and the arc. -/
noncomputable def lineIntersectsArc (line : ILine) (arc : IArc) : Prop :=
  ∃ op ∈ getLineCircleIntersections line arc.circle,
    ∃ p, op = some p ∧ isPointOnLineSegment p line ∧ isPointOnArc p arc

/-- The local `subtractInterval` helper of `subtractArc`: subtract the
non-wrapping interval `[bStart, bStop]` from `[aStart, aStop]`, by the
five-case analysis of the source. -/
noncomputable def subtractInterval (aStart aStop bStart bStop : ℝ) : List (ℝ × ℝ) :=
  if bStop ≤ aStart ∨ bStart ≥ aStop then [(aStart, aStop)]
  else if bStart ≤ aStart ∧ bStop ≥ aStop then []
  else if bStart ≤ aStart ∧ bStop < aStop then [(bStop, aStop)]
  else if bStart > aStart ∧ bStop ≥ aStop then [(aStart, bStart)]
  else if bStart > aStart ∧ bStop < aStop then [(aStart, bStart), (bStop, aStop)]
  else [(aStart, aStop)]

/-- The subtrahend intervals of `subtractArc`: B's bounds normalized into
`[0, 2π)`, split at the seam into up to two non-wrapping intervals. -/
noncomputable def bIntervalsOf (arcB : IArc) : List (ℝ × ℝ) :=
  let bStart := jsNormalize arcB.startAngle
  let bStop := jsNormalize arcB.endAngle
  if bStop ≥ bStart then [(bStart, bStop)] else [(bStart, TWO_PI), (0, bStop)]

/-- `subtractArc` of mathUtils.ts: subtract arc B from arc A, keeping only the
valid resulting segments and tagging them with A's circle. -/
noncomputable def subtractArc (arcA arcB : IArc) : List IArc :=
  let result := (bIntervalsOf arcB).foldl
    (fun res bi => res.flatMap fun seg => subtractInterval seg.1 seg.2 bi.1 bi.2)
    [(arcA.startAngle, arcA.endAngle)]
  (result.filter fun seg => decide (seg.2 > seg.1 ∧ seg.1 ≥ 0 ∧ seg.2 ≤ TWO_PI)).map
    fun seg => ⟨arcA.circle, seg.1, seg.2⟩

/-- `getDirectedArcMidpoint` of mathUtils.ts: the angle halfway along the
counter-clockwise span from start to stop, re-normalized into (-π, π]. -/
noncomputable def getDirectedArcMidpoint (startAngle stopAngle : ℝ) : ℝ :=
  let normStart := jsNormalize startAngle
  let normStop := jsNormalize stopAngle
  let span0 := normStop - normStart
  let span := if span0 < 0 then span0 + TWO_PI else span0
  let midAngle := normStart + span / 2
  if midAngle > Real.pi then midAngle - TWO_PI else midAngle

/-- `getCircleIntersections` of mathUtils.ts: intersection points of two
circles by the classic formula, empty when too far apart or nested. -/
noncomputable def getCircleIntersections (c1 c2 : CircleRef) : List IPoint :=
  let dx := c2.center.x - c1.center.x
  let dy := c2.center.y - c1.center.y
  let d := Real.sqrt (dx * dx + dy * dy)
  if d > c1.radius + c2.radius ∨ d < |c1.radius - c2.radius| then []
  else
    let a := (d * d - c2.radius * c2.radius + c1.radius * c1.radius) / (2 * d)
    let h := Real.sqrt (c1.radius * c1.radius - a * a)
    let midX := c1.center.x + dx * a / d
    let midY := c1.center.y + dy * a / d
    [⟨midX + h * dy / d, midY - h * dx / d⟩,
     ⟨midX - h * dy / d, midY + h * dx / d⟩]

/-- The local `makeArc` helper of `intersectTwoCircles`: the arc of `circle`
from the angle of `fr` to the angle of `to`, both measured from the circle's
center via `atan2`. -/
noncomputable def makeArc (circle : CircleRef) (fromP toP : IPoint) : IArc :=
  ⟨circle,
    atan2 (fromP.y - circle.center.y) (fromP.x - circle.center.x),
    atan2 (toP.y - circle.center.y) (toP.x - circle.center.x)⟩

/-- The local `isMidpointInside` helper of `intersectTwoCircles`: the point of
the owning circle at the arc's directed midpoint lies strictly inside the
other circle. -/
noncomputable def isMidpointInside (arc : IArc) (otherCircle : CircleRef) : Prop :=
  let midAngle := getDirectedArcMidpoint arc.startAngle arc.endAngle
  let midX := arc.circle.center.x + arc.circle.radius * Real.cos midAngle
  let midY := arc.circle.center.y + arc.circle.radius * Real.sin midAngle
  Real.sqrt ((midX - otherCircle.center.x) ^ 2 + (midY - otherCircle.center.y) ^ 2) <
    otherCircle.radius

open Classical in
/-- `intersectTwoCircles` of mathUtils.ts: the two intersection points give
four candidate arcs; a candidate is kept exactly when its directed midpoint
lies inside the other circle. -/
noncomputable def intersectTwoCircles (circle1 circle2 : CircleRef) : List IArc :=
  match getCircleIntersections circle1 circle2 with
  | p1 :: p2 :: _ =>
    let a1 := makeArc circle1 p1 p2
    let a2 := makeArc circle1 p2 p1
    let a3 := makeArc circle2 p1 p2
    let a4 := makeArc circle2 p2 p1
    ((if isMidpointInside a1 circle2 then [a1] else []) ++
     (if isMidpointInside a2 circle2 then [a2] else [])) ++
    ((if isMidpointInside a3 circle1 then [a3] else []) ++
     (if isMidpointInside a4 circle1 then [a4] else []))
  | _ => []

/-- The sweep-line tolerance `1e-9` of `joinOverlappingArcs`. -/
noncomputable def tolMerge : ℝ := 1e-9

/-- An event point of the sweep-line, `IEventPoint` of the source. -/
structure IEventPoint where
  angle : ℝ
  isStart : Bool

/-- Event points of `joinOverlappingArcs`: each arc contributes its normalized
start and end angles. -/
noncomputable def eventsOf (arcs : List IArc) : List IEventPoint :=
  arcs.flatMap fun a =>
    [⟨jsNormalize a.startAngle, true⟩, ⟨jsNormalize a.endAngle, false⟩]

/-- The `wrapCounter` of `joinOverlappingArcs`: the number of arcs whose
normalized start exceeds their normalized end (they cover the 0-radian seam). -/
noncomputable def wrapCount (arcs : List IArc) : ℕ :=
  (arcs.filter fun a => decide (jsNormalize a.endAngle < jsNormalize a.startAngle)).length

/-- The emit step of the sweep: extend the last merged arc when its end is
within tolerance of the covered span's start, else append a new arc. -/
noncomputable def pushOrExtend (c : CircleRef) (merged : List IArc) (prev angle : ℝ) :
    List IArc :=
  match merged.getLast? with
  | some last =>
    if |last.endAngle - prev| < tolMerge then
      merged.dropLast ++ [⟨last.circle, last.startAngle, angle⟩]
    else merged ++ [⟨c, prev, angle⟩]
  | none => merged ++ [⟨c, prev, angle⟩]

/-- The sweep loop of `joinOverlappingArcs`: walk the sorted event points,
tracking the previous event angle and the coverage counter, emitting covered
spans.  Returns the merged arcs and the final counter. -/
noncomputable def sweepEvents (c : CircleRef) :
    List IEventPoint → ℝ → ℤ → List IArc → List IArc × ℤ
  | [], _, active, merged => (merged, active)
  | p :: rest, prev, active, merged =>
    let merged2 :=
      if 0 < active ∧ prev + tolMerge < p.angle then pushOrExtend c merged prev p.angle
      else merged
    sweepEvents c rest p.angle (active + if p.isStart then 1 else -1) merged2

/-- The final seam check of `joinOverlappingArcs`: when the last merged arc
reaches 2π (within tolerance) and the first starts at 0 (within tolerance),
they are the two sides of one arc crossing the seam; re-anchor the first arc's
start to the last arc's start and drop the last. -/
noncomputable def finalSeamMerge (l : List IArc) : List IArc :=
  match l with
  | a :: b :: rest =>
    let last := (b :: rest).getLast (List.cons_ne_nil b rest)
    if |last.endAngle - TWO_PI| < tolMerge ∧ a.startAngle < tolMerge then
      ⟨a.circle, last.startAngle, a.endAngle⟩ :: (b :: rest).dropLast
    else l
  | _ => l

/-- `joinOverlappingArcs` of mathUtils.ts: merge overlapping or adjacent arcs
of one circle by a sweep-line over sorted event points. -/
noncomputable def joinOverlappingArcs (arcs : List IArc) : List IArc :=
  if arcs.length ≤ 1 then arcs
  else
    match arcs with
    | [] => []
    | a0 :: _ =>
      let c := a0.circle
      let points := (eventsOf arcs).mergeSort fun x y => decide (x.angle ≤ y.angle)
      let res := sweepEvents c points 0 (wrapCount arcs : ℤ) []
      let lastAngle := match points.getLast? with
        | some p => p.angle
        | none => 0
      let merged2 :=
        if 0 < res.2 ∧ lastAngle + tolMerge < TWO_PI then
          pushOrExtend c res.1 lastAngle TWO_PI
        else res.1
      finalSeamMerge merged2

/-- One step of the per-circle grouping of `joinIntersections` (a JavaScript
`Map` keyed by circle identity, insertion-ordered). -/
noncomputable def insertByCircle (m : List (CircleRef × List IArc)) (a : IArc) :
    List (CircleRef × List IArc) :=
  match m with
  | [] => [(a.circle, [a])]
  | (c, l) :: rest =>
    if c = a.circle then (c, l ++ [a]) :: rest else (c, l) :: insertByCircle rest a

/-- The per-circle grouping of `joinIntersections`. -/
noncomputable def groupByCircle (arcs : List IArc) : List (CircleRef × List IArc) :=
  arcs.foldl insertByCircle []

/-- `joinIntersections` of mathUtils.ts: group arcs by owning circle, merge
each group with `joinOverlappingArcs`, and flatten back. -/
noncomputable def joinIntersections (arcs : List IArc) : List IArc :=
  if arcs = [] then []
  else ((groupByCircle arcs).map fun g => joinOverlappingArcs g.2).flatten

/-- A `Circle` object of game/shapes/Circle.ts: its geometry plus its list of
remaining boundary arcs (`circle.arc`), initialized to the full circle. -/
structure BoardCircle where
  geom : CircleRef
  arcs : List IArc

/-- `Circle.removePiece`: subtract the cut arc from every boundary arc. -/
noncomputable def removePiece (c : BoardCircle) (cut : IArc) : BoardCircle :=
  ⟨c.geom, c.arcs.flatMap fun a => subtractArc a cut⟩

/-- `Circle.intersect`: the line hits some remaining boundary arc. -/
noncomputable def circleIntersect (c : BoardCircle) (line : ILine) : Prop :=
  ∃ a ∈ c.arcs, lineIntersectsArc line a

/-- The `Board` of game/GameState.ts: circles, live intersection arcs, and the
total cut count recorded at construction. -/
structure Board where
  circles : List BoardCircle
  intersections : List IArc
  totalCuts : ℕ

/-- The raw pairwise overlap arcs collected by
`Board.calculateAllIntersections` before merging: for each pair `i < j`, the
result of `intersectTwoCircles` when it has exactly two arcs. -/
noncomputable def rawPairArcs (cs : List CircleRef) : List IArc :=
  (List.range cs.length).flatMap fun i =>
    (List.range cs.length).flatMap fun j =>
      if i < j then
        let ps := intersectTwoCircles (cs.getD i default) (cs.getD j default)
        if ps.length = 2 then ps else []
      else []

/-- Board construction: build circles with full-circle boundary, compute and
merge all pairwise intersection arcs, and record the total cut count. -/
noncomputable def mkBoard (data : List CircleRef) : Board :=
  let inters := joinIntersections (rawPairArcs data)
  ⟨data.map fun c => ⟨c, [⟨c, 0, TWO_PI⟩]⟩, inters, inters.length⟩

/-- `Board.checkVictory`: the live intersection set is empty. -/
def checkVictory (b : Board) : Prop := b.intersections = []

/-- `Board.checkLoss`: the cut line hits some circle's remaining boundary. -/
noncomputable def checkLoss (b : Board) (line : ILine) : Prop :=
  ∃ c ∈ b.circles, circleIntersect c line

/-- `Board.getProgress`, modelled numerically.  The source computes
`(1 - remaining / totalCuts) * 100` with no guard; when `totalCuts = 0` the
JavaScript division is `0 / 0 = NaN` which propagates to the formatted result,
modelled as `none`. -/
noncomputable def getProgress (b : Board) : Option ℝ :=
  if b.totalCuts = 0 then none
  else some ((1 - (b.intersections.length : ℝ) / (b.totalCuts : ℝ)) * 100)

open Classical in
/-- The filtering loop of `Board.checkIntersection`: walk the live arcs; on a
hit, drop the arc, subtract it from its owning circle's boundary, and count
it.  Returns the surviving arcs, the updated circles, and the hit count. -/
noncomputable def checkIntersectionGo (line : ILine) :
    List IArc → List BoardCircle → List IArc × List BoardCircle × ℕ
  | [], cs => ([], cs, 0)
  | a :: rest, cs =>
    if lineIntersectsArc line a then
      let cs2 := cs.map fun c => if c.geom = a.circle then removePiece c a else c
      let r := checkIntersectionGo line rest cs2
      (r.1, r.2.1, r.2.2 + 1)
    else
      let r := checkIntersectionGo line rest cs
      (a :: r.1, r.2.1, r.2.2)

/-- `Board.checkIntersection`: the updated board and the hit count. -/
noncomputable def checkIntersection (b : Board) (line : ILine) : Board × ℕ :=
  let r := checkIntersectionGo line b.intersections b.circles
  (⟨r.2.1, r.1, b.totalCuts⟩, r.2.2)

/-! ### Toolbox: bounds and evaluation lemmas for `jsMod` and `jsNormalize` -/

lemma twoPi_pos : 0 < TWO_PI := by
  have := Real.pi_pos
  unfold TWO_PI
  linarith

lemma twoPi_gt : (6.283184 : ℝ) < TWO_PI := by
  have := Real.pi_gt_d6
  unfold TWO_PI
  linarith

lemma twoPi_lt : TWO_PI < (6.3 : ℝ) := by
  have := Real.pi_lt_d2
  unfold TWO_PI
  linarith

lemma truncR_intValued (x : ℝ) : ∃ k : ℤ, truncR x = (k : ℝ) := by
  unfold truncR
  by_cases h : 0 ≤ x
  · exact ⟨⌊x⌋, by rw [if_pos h]⟩
  · exact ⟨⌈x⌉, by rw [if_neg h]⟩

lemma truncR_of_Ico {x : ℝ} (h0 : 0 ≤ x) (h1 : x < 1) : truncR x = 0 := by
  unfold truncR
  rw [if_pos h0, Int.floor_eq_zero_iff.2 ⟨h0, h1⟩]
  norm_num

lemma jsMod_of_nonneg_lt {a n : ℝ} (hn : 0 < n) (h0 : 0 ≤ a) (h1 : a < n) :
    jsMod a n = a := by
  unfold jsMod
  rw [truncR_of_Ico (div_nonneg h0 hn.le) ((div_lt_one hn).2 h1)]
  ring

lemma jsMod_of_neg {a n : ℝ} (hn : 0 < n) (h0 : -n < a) (h1 : a < 0) :
    jsMod a n = a := by
  unfold jsMod truncR
  have hq : a / n < 0 := div_neg_of_neg_of_pos h1 hn
  rw [if_neg (by linarith)]
  have : ⌈a / n⌉ = 0 := by
    rw [Int.ceil_eq_zero_iff]
    constructor
    · rw [lt_div_iff hn]
      linarith
    · exact hq.le
  rw [this]
  norm_num

lemma jsMod_self {n : ℝ} (hn : n ≠ 0) : jsMod n n = 0 := by
  unfold jsMod truncR
  rw [div_self hn, if_pos (by norm_num : (0:ℝ) ≤ 1)]
  norm_num

lemma jsMod_nonneg_of_nonneg {a n : ℝ} (hn : 0 < n) (h0 : 0 ≤ a) : 0 ≤ jsMod a n := by
  unfold jsMod truncR
  rw [if_pos (div_nonneg h0 hn.le)]
  have h := Int.floor_le (a / n)
  have : n * (⌊a / n⌋ : ℝ) ≤ n * (a / n) := by
    exact mul_le_mul_of_nonneg_left h hn.le
  rw [mul_div_cancel₀ a hn.ne.symm] at this
  linarith

lemma jsMod_lt_of_nonneg {a n : ℝ} (hn : 0 < n) (h0 : 0 ≤ a) : jsMod a n < n := by
  unfold jsMod truncR
  rw [if_pos (div_nonneg h0 hn.le)]
  have h := Int.lt_floor_add_one (a / n)
  have : n * (a / n) < n * ((⌊a / n⌋ : ℝ) + 1) := mul_lt_mul_of_pos_left h hn
  rw [mul_div_cancel₀ a hn.ne.symm] at this
  nlinarith

lemma jsMod_bounds {a n : ℝ} (hn : 0 < n) : -n < jsMod a n ∧ jsMod a n < n := by
  by_cases h0 : 0 ≤ a
  · have h1 := jsMod_nonneg_of_nonneg hn h0
    have h2 := jsMod_lt_of_nonneg hn h0
    exact ⟨by linarith, h2⟩
  · push_neg at h0
    unfold jsMod truncR
    have hq : a / n < 0 := div_neg_of_neg_of_pos h0 hn
    rw [if_neg (by linarith)]
    have hc1 : (⌈a / n⌉ : ℝ) < a / n + 1 := by
      have := Int.ceil_lt_add_one (a / n)
      linarith
    have hc2 : a / n ≤ (⌈a / n⌉ : ℝ) := Int.le_ceil _
    have e1 : n * (a / n) = a := mul_div_cancel₀ a hn.ne.symm
    constructor
    · nlinarith
    · nlinarith

lemma jsMod_sub_int (a n : ℝ) : ∃ k : ℤ, jsMod a n = a - n * (k : ℝ) := by
  obtain ⟨k, hk⟩ := truncR_intValued (a / n)
  exact ⟨k, by unfold jsMod; rw [hk]⟩

lemma jsNormalize_mem_Ico (a : ℝ) : 0 ≤ jsNormalize a ∧ jsNormalize a < TWO_PI := by
  unfold jsNormalize
  have hb := jsMod_bounds (a := a) twoPi_pos
  have h0 : 0 ≤ jsMod a TWO_PI + TWO_PI := by linarith [hb.1]
  exact ⟨jsMod_nonneg_of_nonneg twoPi_pos h0, jsMod_lt_of_nonneg twoPi_pos h0⟩

lemma jsNormalize_sub_int (a : ℝ) : ∃ k : ℤ, jsNormalize a = a + TWO_PI * (k : ℝ) := by
  unfold jsNormalize
  obtain ⟨k1, hk1⟩ := jsMod_sub_int a TWO_PI
  obtain ⟨k2, hk2⟩ := jsMod_sub_int (jsMod a TWO_PI + TWO_PI) TWO_PI
  refine ⟨1 - k1 - k2, ?_⟩
  rw [hk2, hk1]
  push_cast
  ring

lemma jsNormalize_of_Ico {a : ℝ} (h0 : 0 ≤ a) (h1 : a < TWO_PI) : jsNormalize a = a := by
  unfold jsNormalize
  rw [jsMod_of_nonneg_lt twoPi_pos h0 h1]
  have h2 : 0 ≤ a + TWO_PI := by linarith
  rw [show jsMod (a + TWO_PI) TWO_PI = jsMod (a + TWO_PI) TWO_PI from rfl]
  have : jsMod (a + TWO_PI) TWO_PI = a := by
    unfold jsMod truncR
    have hq0 : (1 : ℝ) ≤ (a + TWO_PI) / TWO_PI := by
      rw [le_div_iff twoPi_pos]
      linarith
    have hq1 : (a + TWO_PI) / TWO_PI < 2 := by
      rw [div_lt_iff twoPi_pos]
      linarith
    rw [if_pos (by linarith)]
    have : ⌊(a + TWO_PI) / TWO_PI⌋ = 1 := by
      rw [Int.floor_eq_iff]
      constructor
      · exact_mod_cast hq0
      · push_cast
        linarith
    rw [this]
    push_cast
    ring
  rw [this]

lemma jsNormalize_of_neg {a : ℝ} (h0 : -TWO_PI < a) (h1 : a < 0) :
    jsNormalize a = a + TWO_PI := by
  unfold jsNormalize
  rw [jsMod_of_neg twoPi_pos h0 h1]
  exact jsMod_of_nonneg_lt twoPi_pos (by linarith) (by linarith)

lemma jsNormalize_twoPi : jsNormalize TWO_PI = 0 := by
  unfold jsNormalize
  rw [jsMod_self twoPi_pos.ne.symm]
  rw [show (0 : ℝ) + TWO_PI = TWO_PI by ring, jsMod_self twoPi_pos.ne.symm]

lemma jsNormalize_zero : jsNormalize 0 = 0 :=
  jsNormalize_of_Ico le_rfl twoPi_pos

lemma unique_rep {x y : ℝ} (k : ℤ) (hxy : x = y + TWO_PI * (k : ℝ))
    (hx0 : 0 ≤ x) (hx1 : x < TWO_PI) (hy0 : 0 ≤ y) (hy1 : y < TWO_PI) : x = y := by
  have h1 : (k : ℝ) * TWO_PI = x - y := by linarith [hxy]
  have h2 : -TWO_PI < x - y := by linarith
  have h3 : x - y < TWO_PI := by linarith
  have h4 : (-1 : ℝ) < (k : ℝ) := by
    by_contra hc
    push_neg at hc
    have : (k : ℝ) * TWO_PI ≤ -1 * TWO_PI := mul_le_mul_of_nonneg_right hc twoPi_pos.le
    nlinarith
  have h5 : (k : ℝ) < 1 := by
    by_contra hc
    push_neg at hc
    have : 1 * TWO_PI ≤ (k : ℝ) * TWO_PI := mul_le_mul_of_nonneg_right hc twoPi_pos.le
    nlinarith
  have h4i : (-1 : ℤ) < k := by exact_mod_cast h4
  have h5i : k < (1 : ℤ) := by exact_mod_cast h5
  have hk0 : k = 0 := by omega
  rw [hk0] at hxy
  push_cast at hxy
  linarith

/-! ### Claim C5: the on-arc test -/

lemma arg_cos_sin {θ : ℝ} (h1 : -Real.pi < θ) (h2 : θ ≤ Real.pi) :
    Complex.arg ⟨Real.cos θ, Real.sin θ⟩ = θ := by
  have he : (⟨Real.cos θ, Real.sin θ⟩ : ℂ) = Complex.cos θ + Complex.sin θ * Complex.I := by
    apply Complex.ext <;> simp [Complex.cos_ofReal_re, Complex.sin_ofReal_re]
  rw [he, Complex.arg_cos_add_sin_mul_I ⟨h1, h2⟩]

/-- The specification's wording of the on-arc test (spec §4.3 step 3), stated
from the spec text for comparison with the source's `isPointOnArc`: normalize
the `atan2` angle and the bounds into `[0, 2π)`; a non-wrapping arc contains
the point iff `normStart ≤ angle ≤ normStop`, a wrapping arc iff
`angle ≥ normStart` or `angle ≤ normStop`. -/
noncomputable def specIsPointOnArc (p : IPoint) (arc : IArc) : Prop :=
  let angle := jsNormalize (atan2 (p.y - arc.circle.center.y) (p.x - arc.circle.center.x))
  let normStart := jsNormalize arc.startAngle
  let normStop := jsNormalize arc.endAngle
  if normStart < normStop then normStart ≤ angle ∧ angle ≤ normStop
  else angle ≥ normStart ∨ angle ≤ normStop

/-- C5: the on-arc test agrees with the spec's case analysis for every point
and arc, and on the wrap-around example arc `{start 5.5, stop 1.0}` the point
at angle 0.2 is on-arc while the point at angle 3.0 is not. -/
theorem c5_isPointOnArc_wrap_aware :
    (∀ p arc, isPointOnArc p arc ↔ specIsPointOnArc p arc) ∧
    isPointOnArc ⟨Real.cos 0.2, Real.sin 0.2⟩ ⟨⟨0, ⟨0, 0⟩, 1⟩, 5.5, 1.0⟩ ∧
    ¬ isPointOnArc ⟨Real.cos 3.0, Real.sin 3.0⟩ ⟨⟨0, ⟨0, 0⟩, 1⟩, 5.5, 1.0⟩ := by
  have hpi := Real.pi_gt_d6
  have hpi2 := Real.pi_lt_d2
  have h2p := twoPi_gt
  have h2p2 := twoPi_lt
  refine ⟨fun p arc => Iff.rfl, ?_, ?_⟩
  · unfold isPointOnArc
    simp only
    rw [show Real.sin 0.2 - (0:ℝ) = Real.sin 0.2 by ring,
        show Real.cos 0.2 - (0:ℝ) = Real.cos 0.2 by ring]
    rw [show atan2 (Real.sin 0.2) (Real.cos 0.2) = 0.2 from
      arg_cos_sin (by linarith) (by linarith)]
    rw [jsNormalize_of_Ico (by norm_num) (by linarith),
        jsNormalize_of_Ico (by norm_num) (by linarith),
        jsNormalize_of_Ico (by norm_num) (by linarith)]
    rw [if_neg (by norm_num)]
    norm_num
  · unfold isPointOnArc
    simp only
    rw [show Real.sin 3.0 - (0:ℝ) = Real.sin 3.0 by ring,
        show Real.cos 3.0 - (0:ℝ) = Real.cos 3.0 by ring]
    rw [show atan2 (Real.sin 3.0) (Real.cos 3.0) = 3.0 from
      arg_cos_sin (by linarith) (by linarith)]
    rw [jsNormalize_of_Ico (by norm_num) (by linarith),
        jsNormalize_of_Ico (by norm_num) (by linarith),
        jsNormalize_of_Ico (by norm_num) (by linarith)]
    rw [if_neg (by norm_num)]
    norm_num

/-! ### Claim C6: subtracting an arc from itself -/

/-- C6 counterexample: for the full-circle arc `{start 0, end 2π}` (the very
arc every circle's boundary is initialized to), subtracting the arc from
itself returns the arc unchanged, not the empty result: normalization maps the
subtrahend's end `2π` to `0`, so B is treated as the empty interval `[0, 0]`. -/
theorem c6_counterexample_full_circle :
    subtractArc ⟨⟨0, ⟨0, 0⟩, 1⟩, 0, TWO_PI⟩ ⟨⟨0, ⟨0, 0⟩, 1⟩, 0, TWO_PI⟩ =
      [⟨⟨0, ⟨0, 0⟩, 1⟩, 0, TWO_PI⟩] := by
  unfold subtractArc bIntervalsOf
  simp only [jsNormalize_zero, jsNormalize_twoPi]
  rw [if_pos (le_refl (0 : ℝ))]
  simp only [List.foldl_cons, List.foldl_nil, List.flatMap_cons, List.flatMap_nil]
  unfold subtractInterval
  rw [if_pos (Or.inl (le_refl (0 : ℝ)))]
  simp only [List.append_nil, List.filter_cons, List.filter_nil]
  rw [if_pos]
  · simp
  · rw [decide_eq_true_eq]
    refine ⟨twoPi_pos, le_refl 0, le_refl TWO_PI⟩

/-- C6 amended: for every arc B with normalized bounds `0 ≤ start < stop ≤ 2π`
other than the full-circle representation `(0, 2π)` itself, subtracting B from
itself yields the empty result. -/
theorem c6_subtract_self_empty (c : CircleRef) (s e : ℝ)
    (h0 : 0 ≤ s) (h1 : s < e) (h2 : e ≤ TWO_PI) (h3 : ¬(s = 0 ∧ e = TWO_PI)) :
    subtractArc ⟨c, s, e⟩ ⟨c, s, e⟩ = [] := by
  unfold subtractArc bIntervalsOf
  simp only
  rcases lt_or_eq_of_le h2 with he | he
  · rw [jsNormalize_of_Ico h0 (lt_trans h1 he), jsNormalize_of_Ico (le_trans h0 h1.le) he]
    rw [if_pos h1.le]
    simp only [List.foldl_cons, List.foldl_nil, List.flatMap_cons, List.flatMap_nil]
    unfold subtractInterval
    rw [if_neg (by push_neg; exact ⟨h1, by linarith⟩)]
    rw [if_pos ⟨le_refl s, le_refl e⟩]
    simp
  · have hs : s ≠ 0 := fun hs0 => h3 ⟨hs0, he⟩
    have hspos : 0 < s := lt_of_le_of_ne h0 (Ne.symm hs)
    rw [he, jsNormalize_twoPi, jsNormalize_of_Ico h0 (by linarith)]
    rw [if_neg (by push_neg; exact hspos)]
    simp only [List.foldl_cons, List.foldl_nil, List.flatMap_cons, List.flatMap_nil]
    unfold subtractInterval
    rw [if_neg (by push_neg; exact ⟨by linarith, by linarith⟩)]
    rw [if_pos ⟨le_refl s, le_refl TWO_PI⟩]
    simp

/-- Witness for C6's amended theorem at the concrete arc `[1, 2]`. -/
theorem c6_subtract_self_empty_witness :
    ((0 : ℝ) ≤ 1 ∧ (1 : ℝ) < 2 ∧ (2 : ℝ) ≤ TWO_PI ∧ ¬((1 : ℝ) = 0 ∧ (2 : ℝ) = TWO_PI)) ∧
    subtractArc ⟨⟨0, ⟨0, 0⟩, 1⟩, 1, 2⟩ ⟨⟨0, ⟨0, 0⟩, 1⟩, 1, 2⟩ = [] := by
  have h2p := twoPi_gt
  refine ⟨⟨by norm_num, by norm_num, by linarith, by intro h; linarith [h.2]⟩, ?_⟩
  exact c6_subtract_self_empty _ 1 2 (by norm_num) (by norm_num) (by linarith)
    (by intro h; linarith [h.2])

/-! ### Claim C4: the subtractArc contract -/

lemma subtractInterval_length (a b c d : ℝ) : (subtractInterval a b c d).length ≤ 2 := by
  unfold subtractInterval
  split_ifs <;> simp

lemma subtractInterval_cases (a b c d : ℝ) :
    ((d ≤ a ∨ c ≥ b) ∧ subtractInterval a b c d = [(a, b)]) ∨
    ((c ≤ a ∧ d ≥ b) ∧ subtractInterval a b c d = []) ∨
    ((c ≤ a ∧ d < b) ∧ subtractInterval a b c d = [(d, b)]) ∨
    ((c > a ∧ d ≥ b) ∧ subtractInterval a b c d = [(a, c)]) ∨
    ((c > a ∧ d < b) ∧ subtractInterval a b c d = [(a, c), (d, b)]) := by
  unfold subtractInterval
  by_cases h1 : d ≤ a ∨ c ≥ b
  · left
    exact ⟨h1, by rw [if_pos h1]⟩
  · rw [if_neg h1]
    push_neg at h1
    by_cases h2 : c ≤ a ∧ d ≥ b
    · right; left
      exact ⟨h2, by rw [if_pos h2]⟩
    · rw [if_neg h2]
      by_cases h3 : c ≤ a ∧ d < b
      · right; right; left
        exact ⟨h3, by rw [if_pos h3]⟩
      · rw [if_neg h3]
        by_cases h4 : c > a ∧ d ≥ b
        · right; right; right; left
          exact ⟨h4, by rw [if_pos h4]⟩
        · rw [if_neg h4]
          have hca : c > a := by
            rcases le_or_lt c a with hc | hc
            · exfalso
              rcases le_or_lt b d with hd | hd
              · exact h2 ⟨hc, hd⟩
              · exact h3 ⟨hc, hd⟩
            · exact hc
          have hdb : d < b := by
            rcases le_or_lt b d with hd | hd
            · exact absurd ⟨hca, hd⟩ h4
            · exact hd
          right; right; right; right
          exact ⟨⟨hca, hdb⟩, by rw [if_pos ⟨hca, hdb⟩]⟩

lemma subtractArc_length_le (A B : IArc) : (subtractArc A B).length ≤ 2 := by
  unfold subtractArc bIntervalsOf
  simp only
  have hbS := jsNormalize_mem_Ico B.startAngle
  have hbE := jsNormalize_mem_Ico B.endAngle
  by_cases hw : jsNormalize B.endAngle ≥ jsNormalize B.startAngle
  · rw [if_pos hw]
    simp only [List.foldl_cons, List.foldl_nil, List.flatMap_cons, List.flatMap_nil,
      List.append_nil, List.length_map]
    exact le_trans (List.length_filter_le _ _)
      (subtractInterval_length A.startAngle A.endAngle _ _)
  · rw [if_neg hw]
    simp only [List.foldl_cons, List.foldl_nil, List.flatMap_cons, List.flatMap_nil,
      List.append_nil, List.length_map]
    rcases subtractInterval_cases A.startAngle A.endAngle (jsNormalize B.startAngle) TWO_PI
      with ⟨_, hc⟩ | ⟨_, hc⟩ | ⟨hcond, hc⟩ | ⟨_, hc⟩ | ⟨hcond, hc⟩
    · rw [hc]
      simp only [List.flatMap_cons, List.flatMap_nil, List.append_nil]
      exact le_trans (List.length_filter_le _ _) (subtractInterval_length _ _ _ _)
    · rw [hc]
      simp
    · rw [hc]
      simp only [List.flatMap_cons, List.flatMap_nil, List.append_nil]
      exact le_trans (List.length_filter_le _ _) (subtractInterval_length _ _ _ _)
    · rw [hc]
      simp only [List.flatMap_cons, List.flatMap_nil, List.append_nil]
      exact le_trans (List.length_filter_le _ _) (subtractInterval_length _ _ _ _)
    · rw [hc]
      simp only [List.flatMap_cons, List.flatMap_nil, List.append_nil]
      have hL2 : subtractInterval TWO_PI A.endAngle 0 (jsNormalize B.endAngle) =
          [(TWO_PI, A.endAngle)] := by
        unfold subtractInterval
        rw [if_pos (Or.inl hbE.2.le)]
      rw [hL2]
      rw [List.filter_append]
      have hkill : List.filter
          (fun seg => decide (seg.2 > seg.1 ∧ seg.1 ≥ 0 ∧ seg.2 ≤ TWO_PI))
          [((TWO_PI : ℝ), A.endAngle)] = [] := by
        simp only [List.filter_cons, List.filter_nil]
        rw [if_neg]
        rw [decide_eq_true_eq]
        intro h
        linarith [hcond.2, h.2.2]
      rw [hkill, List.append_nil]
      exact le_trans (List.length_filter_le _ _) (subtractInterval_length _ _ _ _)

lemma subtractArc_wf (A B : IArc) :
    ∀ r ∈ subtractArc A B,
      r.circle = A.circle ∧ 0 ≤ r.startAngle ∧ r.startAngle < r.endAngle ∧
        r.endAngle ≤ TWO_PI := by
  intro r hr
  unfold subtractArc at hr
  simp only [List.mem_map, List.mem_filter] at hr
  obtain ⟨seg, ⟨_, hvalid⟩, hr⟩ := hr
  rw [decide_eq_true_eq] at hvalid
  subst hr
  exact ⟨rfl, hvalid.2.1, hvalid.1, hvalid.2.2⟩

/-- C4: `subtractArc` returns at most two arcs; every returned arc carries A's
circle reference and satisfies `0 ≤ start < stop ≤ 2π`; B is split at the seam
into two non-wrapping intervals exactly when its normalized bounds wrap; and
the single-interval subtraction follows the five-case analysis of the source
(no overlap, B covers A, B over A's left edge, B over A's right edge, B
strictly inside A). -/
theorem c4_subtractArc_contract :
    (∀ A B : IArc, (subtractArc A B).length ≤ 2) ∧
    (∀ A B : IArc, ∀ r ∈ subtractArc A B,
      r.circle = A.circle ∧ 0 ≤ r.startAngle ∧ r.startAngle < r.endAngle ∧
        r.endAngle ≤ TWO_PI) ∧
    (∀ B : IArc, jsNormalize B.endAngle < jsNormalize B.startAngle →
      bIntervalsOf B = [(jsNormalize B.startAngle, TWO_PI), (0, jsNormalize B.endAngle)]) ∧
    (∀ B : IArc, jsNormalize B.startAngle ≤ jsNormalize B.endAngle →
      bIntervalsOf B = [(jsNormalize B.startAngle, jsNormalize B.endAngle)]) ∧
    (∀ a b c d : ℝ, (d ≤ a ∨ c ≥ b) → subtractInterval a b c d = [(a, b)]) ∧
    (∀ a b c d : ℝ, c ≤ a → d ≥ b → ¬(d ≤ a ∨ c ≥ b) → subtractInterval a b c d = []) ∧
    (∀ a b c d : ℝ, c ≤ a → d < b → ¬(d ≤ a ∨ c ≥ b) →
      subtractInterval a b c d = [(d, b)]) ∧
    (∀ a b c d : ℝ, c > a → d ≥ b → ¬(d ≤ a ∨ c ≥ b) →
      subtractInterval a b c d = [(a, c)]) ∧
    (∀ a b c d : ℝ, c > a → d < b → ¬(d ≤ a ∨ c ≥ b) →
      subtractInterval a b c d = [(a, c), (d, b)]) := by
  refine ⟨subtractArc_length_le, subtractArc_wf, ?_, ?_, ?_, ?_, ?_, ?_, ?_⟩
  · intro B hw
    unfold bIntervalsOf
    simp only
    rw [if_neg (by push_neg; exact hw)]
  · intro B hw
    unfold bIntervalsOf
    simp only
    rw [if_pos hw]
  · intro a b c d h
    unfold subtractInterval
    rw [if_pos h]
  · intro a b c d h1 h2 h3
    unfold subtractInterval
    rw [if_neg h3, if_pos ⟨h1, h2⟩]
  · intro a b c d h1 h2 h3
    unfold subtractInterval
    rw [if_neg h3, if_neg (fun hc => absurd hc.2 (not_le.2 h2)), if_pos ⟨h1, h2⟩]
  · intro a b c d h1 h2 h3
    unfold subtractInterval
    rw [if_neg h3, if_neg (fun hc => absurd h1 (not_lt.2 hc.1)),
      if_neg (fun hc => absurd h1 (not_lt.2 hc.1)), if_pos ⟨h1, h2⟩]
  · intro a b c d h1 h2 h3
    unfold subtractInterval
    rw [if_neg h3, if_neg (fun hc => absurd h1 (not_lt.2 hc.1)),
      if_neg (fun hc => absurd h1 (not_lt.2 hc.1)),
      if_neg (fun hc => absurd hc.2 (not_le.2 h2)), if_pos ⟨h1, h2⟩]

/-- Witness for C4 at the concrete arcs A = `[0, 5]`, B = `[1, 2]`: the result
is the two arcs `[0, 1]` and `[2, 5]`, and the contract holds of the member
`[2, 5]`. -/
theorem c4_subtractArc_contract_witness :
    subtractArc ⟨⟨0, ⟨0, 0⟩, 1⟩, 0, 5⟩ ⟨⟨0, ⟨0, 0⟩, 1⟩, 1, 2⟩ =
      [⟨⟨0, ⟨0, 0⟩, 1⟩, 0, 1⟩, ⟨⟨0, ⟨0, 0⟩, 1⟩, 2, 5⟩] ∧
    ((⟨⟨0, ⟨0, 0⟩, 1⟩, 2, 5⟩ : IArc).circle = (⟨⟨0, ⟨0, 0⟩, 1⟩, 0, 5⟩ : IArc).circle ∧
      0 ≤ (⟨⟨0, ⟨0, 0⟩, 1⟩, 2, 5⟩ : IArc).startAngle ∧
      (⟨⟨0, ⟨0, 0⟩, 1⟩, 2, 5⟩ : IArc).startAngle < (⟨⟨0, ⟨0, 0⟩, 1⟩, 2, 5⟩ : IArc).endAngle ∧
      (⟨⟨0, ⟨0, 0⟩, 1⟩, 2, 5⟩ : IArc).endAngle ≤ TWO_PI) := by
  have h2p := twoPi_gt
  have heval : subtractArc ⟨⟨0, ⟨0, 0⟩, 1⟩, 0, 5⟩ ⟨⟨0, ⟨0, 0⟩, 1⟩, 1, 2⟩ =
      [⟨⟨0, ⟨0, 0⟩, 1⟩, 0, 1⟩, ⟨⟨0, ⟨0, 0⟩, 1⟩, 2, 5⟩] := by
    unfold subtractArc bIntervalsOf
    simp only
    rw [jsNormalize_of_Ico (by norm_num) (by linarith),
      jsNormalize_of_Ico (by norm_num) (by linarith)]
    rw [if_pos (by norm_num : (2:ℝ) ≥ 1)]
    simp only [List.foldl_cons, List.foldl_nil, List.flatMap_cons, List.flatMap_nil,
      List.append_nil]
    unfold subtractInterval
    rw [if_neg (by push_neg; norm_num), if_neg (by push_neg; norm_num),
      if_neg (by push_neg; norm_num), if_neg (by push_neg; norm_num),
      if_pos (by norm_num : (1:ℝ) > 0 ∧ (2:ℝ) < 5)]
    simp only [List.filter_cons, List.filter_nil]
    rw [if_pos (by rw [decide_eq_true_eq]; refine ⟨by norm_num, by norm_num, by linarith⟩),
      if_pos (by rw [decide_eq_true_eq]; refine ⟨by norm_num, by norm_num, by linarith⟩)]
    simp
  refine ⟨heval, c4_subtractArc_contract.2.1 ⟨⟨0, ⟨0, 0⟩, 1⟩, 0, 5⟩ ⟨⟨0, ⟨0, 0⟩, 1⟩, 1, 2⟩
    ⟨⟨0, ⟨0, 0⟩, 1⟩, 2, 5⟩ ?_⟩
  rw [heval]
  simp

/-! ### Claim C10: degenerate zero-length segments -/

lemma getLineCircleIntersections_degenerate (s : IPoint) (c : CircleRef) :
    getLineCircleIntersections ⟨s, s⟩ c = [none] := by
  unfold getLineCircleIntersections
  simp [sub_self]

/-- C10: for every arc, a degenerate zero-length cut segment (start equal to
end) produces no hit: the lone candidate point comes from a `0 / 0` division
(`NaN` in the source) and fails the containment tests, so `lineIntersectsArc`
is false rather than an error. -/
theorem c10_degenerate_segment_no_hit (line : ILine) (arc : IArc)
    (h : line.start = line.stop) : ¬ lineIntersectsArc line arc := by
  intro hcontra
  obtain ⟨op, hop, p, hsome, _⟩ := hcontra
  have hline : line = ⟨line.start, line.start⟩ := by
    cases line
    cases h
    rfl
  rw [hline, getLineCircleIntersections_degenerate] at hop
  simp only [List.mem_singleton] at hop
  subst hop
  exact Option.noConfusion hsome

/-- Witness for C10 at a concrete degenerate segment and arc. -/
theorem c10_degenerate_segment_no_hit_witness :
    (⟨⟨1, 2⟩, ⟨1, 2⟩⟩ : ILine).start = (⟨⟨1, 2⟩, ⟨1, 2⟩⟩ : ILine).stop ∧
    ¬ lineIntersectsArc ⟨⟨1, 2⟩, ⟨1, 2⟩⟩ ⟨⟨0, ⟨0, 0⟩, 1⟩, 0, 1⟩ :=
  ⟨rfl, c10_degenerate_segment_no_hit ⟨⟨1, 2⟩, ⟨1, 2⟩⟩ ⟨⟨0, ⟨0, 0⟩, 1⟩, 0, 1⟩ rfl⟩

/-! ### Claim C9: the zero-arc board -/

lemma getCircleIntersections_far :
    getCircleIntersections ⟨0, ⟨0, 0⟩, 1⟩ ⟨1, ⟨10, 0⟩, 1⟩ = [] := by
  unfold getCircleIntersections
  simp only
  rw [if_pos]
  left
  have h : Real.sqrt ((10 - 0) * (10 - 0) + (0 - 0) * (0 - 0)) = 10 := by
    rw [show ((10:ℝ) - 0) * (10 - 0) + (0 - 0) * (0 - 0) = 100 by norm_num]
    rw [Real.sqrt_eq_cases]
    left
    norm_num
  rw [h]
  norm_num

lemma mkBoard_disjoint_pair :
    mkBoard [⟨0, ⟨0, 0⟩, 1⟩, ⟨1, ⟨10, 0⟩, 1⟩] =
      ⟨[⟨⟨0, ⟨0, 0⟩, 1⟩, [⟨⟨0, ⟨0, 0⟩, 1⟩, 0, TWO_PI⟩]⟩,
        ⟨⟨1, ⟨10, 0⟩, 1⟩, [⟨⟨1, ⟨10, 0⟩, 1⟩, 0, TWO_PI⟩]⟩], [], 0⟩ := by
  have hits : intersectTwoCircles ⟨0, ⟨0, 0⟩, 1⟩ ⟨1, ⟨10, 0⟩, 1⟩ = [] := by
    unfold intersectTwoCircles
    rw [getCircleIntersections_far]
  have hraw : rawPairArcs [⟨0, ⟨0, 0⟩, 1⟩, ⟨1, ⟨10, 0⟩, 1⟩] = [] := by
    unfold rawPairArcs
    have hr : List.range ([(⟨0, ⟨0, 0⟩, 1⟩ : CircleRef), ⟨1, ⟨10, 0⟩, 1⟩].length) = [0, 1] := by
      decide
    rw [hr]
    simp [hits]
  unfold mkBoard
  rw [hraw]
  unfold joinIntersections
  simp

/-- C9: on a board whose circle pairs do not overlap (here two far-apart
circles), the victory condition holds immediately and `totalCuts = 0`; but the
source's `getProgress` divides `remaining / totalCuts` unguarded, so at
`totalCuts = 0` it computes `0 / 0` (`NaN`, modelled `none`) instead of the
claimed `"100.00"`. -/
theorem c9_zero_arc_board :
    checkVictory (mkBoard [⟨0, ⟨0, 0⟩, 1⟩, ⟨1, ⟨10, 0⟩, 1⟩]) ∧
    (mkBoard [⟨0, ⟨0, 0⟩, 1⟩, ⟨1, ⟨10, 0⟩, 1⟩]).totalCuts = 0 ∧
    getProgress (mkBoard [⟨0, ⟨0, 0⟩, 1⟩, ⟨1, ⟨10, 0⟩, 1⟩]) = none := by
  rw [mkBoard_disjoint_pair]
  refine ⟨rfl, rfl, ?_⟩
  unfold getProgress
  simp

/-! ### Toolbox for the circle-circle intersector: spans, midpoints, arguments -/

/-- The `span` computation inside `getDirectedArcMidpoint`: the
counter-clockwise angular distance from start to stop. -/
noncomputable def spanOf (startAngle stopAngle : ℝ) : ℝ :=
  let s0 := jsNormalize stopAngle - jsNormalize startAngle
  if s0 < 0 then s0 + TWO_PI else s0

lemma getDirectedArcMidpoint_span (θ₁ θ₂ : ℝ) :
    getDirectedArcMidpoint θ₁ θ₂ =
      if jsNormalize θ₁ + spanOf θ₁ θ₂ / 2 > Real.pi
      then jsNormalize θ₁ + spanOf θ₁ θ₂ / 2 - TWO_PI
      else jsNormalize θ₁ + spanOf θ₁ θ₂ / 2 := rfl

lemma spanOf_self (θ : ℝ) : spanOf θ θ = 0 := by
  unfold spanOf
  simp

lemma spanOf_mem (θ₁ θ₂ : ℝ) : 0 ≤ spanOf θ₁ θ₂ ∧ spanOf θ₁ θ₂ < TWO_PI := by
  unfold spanOf
  have h1 := jsNormalize_mem_Ico θ₁
  have h2 := jsNormalize_mem_Ico θ₂
  by_cases hs : jsNormalize θ₂ - jsNormalize θ₁ < 0
  · rw [if_pos hs]
    constructor <;> linarith
  · rw [if_neg hs]
    push_neg at hs
    constructor <;> linarith

lemma spanOf_congr (θ₁ θ₂ : ℝ) : ∃ k : ℤ, spanOf θ₁ θ₂ = (θ₂ - θ₁) + TWO_PI * (k : ℝ) := by
  unfold spanOf
  obtain ⟨k1, hk1⟩ := jsNormalize_sub_int θ₁
  obtain ⟨k2, hk2⟩ := jsNormalize_sub_int θ₂
  by_cases hs : jsNormalize θ₂ - jsNormalize θ₁ < 0
  · refine ⟨k2 - k1 + 1, ?_⟩
    rw [if_pos hs, hk1, hk2]
    push_cast
    ring
  · refine ⟨k2 - k1, ?_⟩
    rw [if_neg hs, hk1, hk2]
    push_cast
    ring

lemma spanOf_eq_of_congr {θ₁ θ₂ x : ℝ} (k : ℤ) (h : θ₂ - θ₁ = x + TWO_PI * (k : ℝ))
    (h0 : 0 ≤ x) (h1 : x < TWO_PI) : spanOf θ₁ θ₂ = x := by
  obtain ⟨k2, hk2⟩ := spanOf_congr θ₁ θ₂
  have hmem := spanOf_mem θ₁ θ₂
  refine unique_rep (k + k2) ?_ hmem.1 hmem.2 h0 h1
  rw [hk2, h]
  push_cast
  ring

lemma mid_congr (θ₁ θ₂ : ℝ) :
    ∃ k : ℤ, getDirectedArcMidpoint θ₁ θ₂ = θ₁ + spanOf θ₁ θ₂ / 2 + TWO_PI * (k : ℝ) := by
  rw [getDirectedArcMidpoint_span]
  obtain ⟨k1, hk1⟩ := jsNormalize_sub_int θ₁
  by_cases hp : jsNormalize θ₁ + spanOf θ₁ θ₂ / 2 > Real.pi
  · refine ⟨k1 - 1, ?_⟩
    rw [if_pos hp, hk1]
    push_cast
    ring
  · refine ⟨k1, ?_⟩
    rw [if_neg hp, hk1]
    ring

lemma cos_eq_of_congr {x y : ℝ} (k : ℤ) (h : x = y + TWO_PI * (k : ℝ)) :
    Real.cos x = Real.cos y := by
  rw [h, show y + TWO_PI * (k : ℝ) = y + (k : ℝ) * (2 * Real.pi) by unfold TWO_PI; ring]
  exact Real.cos_add_int_mul_two_pi y k

lemma sin_eq_of_congr {x y : ℝ} (k : ℤ) (h : x = y + TWO_PI * (k : ℝ)) :
    Real.sin x = Real.sin y := by
  rw [h, show y + TWO_PI * (k : ℝ) = y + (k : ℝ) * (2 * Real.pi) by unfold TWO_PI; ring]
  exact Real.sin_add_int_mul_two_pi y k

lemma arg_mul_congr {z w : ℂ} (hz : z ≠ 0) (hw : w ≠ 0) :
    ∃ k : ℤ, Complex.arg (z * w) = Complex.arg z + Complex.arg w + TWO_PI * (k : ℝ) := by
  have hang := Complex.arg_mul_coe_angle hz hw
  rw [← Real.Angle.coe_add] at hang
  obtain ⟨k, hk⟩ := Real.Angle.angle_eq_iff_two_pi_dvd_sub.1 hang
  refine ⟨k, ?_⟩
  unfold TWO_PI
  linarith [hk]

lemma abs_mul_cos_arg (v : ℂ) : Complex.abs v * Real.cos (Complex.arg v) = v.re := by
  by_cases hv : v = 0
  · subst hv
    simp
  · rw [Complex.cos_arg hv]
    exact mul_div_cancel₀ v.re (AbsoluteValue.ne_zero Complex.abs hv)

lemma abs_mul_sin_arg (v : ℂ) : Complex.abs v * Real.sin (Complex.arg v) = v.im := by
  rw [Complex.sin_arg]
  by_cases hv : v = 0
  · subst hv
    simp
  · exact mul_div_cancel₀ v.im (AbsoluteValue.ne_zero Complex.abs hv)

lemma sqrt_scaled (t u v : ℝ) :
    Real.sqrt ((t * u) ^ 2 + (t * v) ^ 2) = |t| * Real.sqrt (u * u + v * v) := by
  rw [show (t * u) ^ 2 + (t * v) ^ 2 = t ^ 2 * (u * u + v * v) by ring,
    Real.sqrt_mul (sq_nonneg t), Real.sqrt_sq_eq_abs]

lemma abs_of_mk (x y : ℝ) : Complex.abs ⟨x, y⟩ = Real.sqrt (x * x + y * y) := by
  rw [Complex.abs_apply, Complex.normSq_mk]

lemma mk_ne_zero_of_abs_pos {x y : ℝ} (h : 0 < Real.sqrt (x * x + y * y)) :
    (⟨x, y⟩ : ℂ) ≠ 0 := by
  intro hc
  rw [← abs_of_mk] at h
  rw [hc] at h
  simp at h

/-! ### The circle-circle intersector's internal quantities, named for proofs -/

/-- The center distance `d` computed inside `getCircleIntersections`. -/
noncomputable def dOf (c1 c2 : CircleRef) : ℝ :=
  Real.sqrt ((c2.center.x - c1.center.x) * (c2.center.x - c1.center.x) +
    (c2.center.y - c1.center.y) * (c2.center.y - c1.center.y))

/-- The chord-line distance `a` computed inside `getCircleIntersections`. -/
noncomputable def aOf (c1 c2 : CircleRef) : ℝ :=
  (dOf c1 c2 * dOf c1 c2 - c2.radius * c2.radius + c1.radius * c1.radius) / (2 * dOf c1 c2)

/-- The half-chord `h` computed inside `getCircleIntersections`. -/
noncomputable def hOf (c1 c2 : CircleRef) : ℝ :=
  Real.sqrt (c1.radius * c1.radius - aOf c1 c2 * aOf c1 c2)

/-- The first intersection point computed by `getCircleIntersections`. -/
noncomputable def point1Of (c1 c2 : CircleRef) : IPoint :=
  ⟨c1.center.x + (c2.center.x - c1.center.x) * aOf c1 c2 / dOf c1 c2 +
      hOf c1 c2 * (c2.center.y - c1.center.y) / dOf c1 c2,
   c1.center.y + (c2.center.y - c1.center.y) * aOf c1 c2 / dOf c1 c2 -
      hOf c1 c2 * (c2.center.x - c1.center.x) / dOf c1 c2⟩

/-- The second intersection point computed by `getCircleIntersections`. -/
noncomputable def point2Of (c1 c2 : CircleRef) : IPoint :=
  ⟨c1.center.x + (c2.center.x - c1.center.x) * aOf c1 c2 / dOf c1 c2 -
      hOf c1 c2 * (c2.center.y - c1.center.y) / dOf c1 c2,
   c1.center.y + (c2.center.y - c1.center.y) * aOf c1 c2 / dOf c1 c2 +
      hOf c1 c2 * (c2.center.x - c1.center.x) / dOf c1 c2⟩

lemma getCircleIntersections_eq (c1 c2 : CircleRef)
    (h : ¬(dOf c1 c2 > c1.radius + c2.radius ∨ dOf c1 c2 < |c1.radius - c2.radius|)) :
    getCircleIntersections c1 c2 = [point1Of c1 c2, point2Of c1 c2] := by
  unfold dOf at h
  unfold getCircleIntersections
  simp only
  rw [if_neg h]
  unfold point1Of point2Of hOf aOf dOf
  rfl

lemma getCircleIntersections_empty (c1 c2 : CircleRef)
    (h : dOf c1 c2 > c1.radius + c2.radius ∨ dOf c1 c2 < |c1.radius - c2.radius|) :
    getCircleIntersections c1 c2 = [] := by
  unfold dOf at h
  unfold getCircleIntersections
  simp only
  rw [if_pos h]

/-- The center-difference vector as a complex number (proof helper). -/
noncomputable def wOf (c1 c2 : CircleRef) : ℂ :=
  ⟨c2.center.x - c1.center.x, c2.center.y - c1.center.y⟩

/-- `a - i h`, the complex factor carrying the first intersection point. -/
noncomputable def z1Of (c1 c2 : CircleRef) : ℂ := ⟨aOf c1 c2, -hOf c1 c2⟩

/-- `a + i h`, the complex factor carrying the second intersection point. -/
noncomputable def z2Of (c1 c2 : CircleRef) : ℂ := ⟨aOf c1 c2, hOf c1 c2⟩

/-- `(a - d) - i h`, the factor for the first point seen from circle 2. -/
noncomputable def z3Of (c1 c2 : CircleRef) : ℂ := ⟨aOf c1 c2 - dOf c1 c2, -hOf c1 c2⟩

/-- `(a - d) + i h`, the factor for the second point seen from circle 2. -/
noncomputable def z4Of (c1 c2 : CircleRef) : ℂ := ⟨aOf c1 c2 - dOf c1 c2, hOf c1 c2⟩

lemma dOf_nonneg (c1 c2 : CircleRef) : 0 ≤ dOf c1 c2 := Real.sqrt_nonneg _

lemma dOf_sq (c1 c2 : CircleRef) :
    dOf c1 c2 * dOf c1 c2 =
      (c2.center.x - c1.center.x) * (c2.center.x - c1.center.x) +
        (c2.center.y - c1.center.y) * (c2.center.y - c1.center.y) := by
  unfold dOf
  exact Real.mul_self_sqrt (add_nonneg (mul_self_nonneg _) (mul_self_nonneg _))

lemma abs_wOf (c1 c2 : CircleRef) : Complex.abs (wOf c1 c2) = dOf c1 c2 := by
  unfold wOf dOf
  exact abs_of_mk _ _

lemma wOf_ne_zero {c1 c2 : CircleRef} (hd : 0 < dOf c1 c2) : wOf c1 c2 ≠ 0 := by
  unfold wOf
  unfold dOf at hd
  exact mk_ne_zero_of_abs_pos hd

lemma two_a_d {c1 c2 : CircleRef} (hd : 0 < dOf c1 c2) :
    2 * aOf c1 c2 * dOf c1 c2 =
      dOf c1 c2 * dOf c1 c2 - c2.radius * c2.radius + c1.radius * c1.radius := by
  unfold aOf
  field_simp
  ring

lemma h_sq_pos {c1 c2 : CircleRef}
    (hlo : |c1.radius - c2.radius| < dOf c1 c2) (hhi : dOf c1 c2 < c1.radius + c2.radius) :
    0 < c1.radius * c1.radius - aOf c1 c2 * aOf c1 c2 := by
  have hd : 0 < dOf c1 c2 := lt_of_le_of_lt (abs_nonneg _) hlo
  have h2ad := two_a_d hd
  have habs := abs_lt.1 hlo
  have hP1 : 0 < c1.radius + c2.radius - dOf c1 c2 := by linarith
  have hP2 : 0 < c2.radius + dOf c1 c2 - c1.radius := by linarith [habs.2]
  have hP3 : 0 < dOf c1 c2 + c1.radius - c2.radius := by linarith [habs.1]
  have hP4 : 0 < dOf c1 c2 + c1.radius + c2.radius := by linarith
  have hprod : 0 < (c1.radius + c2.radius - dOf c1 c2) * ((c2.radius + dOf c1 c2 - c1.radius) *
      ((dOf c1 c2 + c1.radius - c2.radius) * (dOf c1 c2 + c1.radius + c2.radius))) :=
    mul_pos hP1 (mul_pos hP2 (mul_pos hP3 hP4))
  have hkey : 4 * (dOf c1 c2 * dOf c1 c2) * (c1.radius * c1.radius - aOf c1 c2 * aOf c1 c2) =
      (c1.radius + c2.radius - dOf c1 c2) * ((c2.radius + dOf c1 c2 - c1.radius) *
        ((dOf c1 c2 + c1.radius - c2.radius) * (dOf c1 c2 + c1.radius + c2.radius))) := by
    linear_combination (-(2 * aOf c1 c2 * dOf c1 c2 +
      (dOf c1 c2 * dOf c1 c2 - c2.radius * c2.radius + c1.radius * c1.radius))) * h2ad
  nlinarith [mul_pos hd hd, hprod, hkey]

lemma hOf_sq {c1 c2 : CircleRef}
    (h : 0 ≤ c1.radius * c1.radius - aOf c1 c2 * aOf c1 c2) :
    hOf c1 c2 * hOf c1 c2 = c1.radius * c1.radius - aOf c1 c2 * aOf c1 c2 := by
  unfold hOf
  exact Real.mul_self_sqrt h

lemma hOf_nonneg (c1 c2 : CircleRef) : 0 ≤ hOf c1 c2 := Real.sqrt_nonneg _

lemma abs_z1Of {c1 c2 : CircleRef} (hr1 : 0 ≤ c1.radius)
    (h : 0 ≤ c1.radius * c1.radius - aOf c1 c2 * aOf c1 c2) :
    Complex.abs (z1Of c1 c2) = c1.radius := by
  unfold z1Of
  rw [abs_of_mk]
  rw [show aOf c1 c2 * aOf c1 c2 + -hOf c1 c2 * -hOf c1 c2 = c1.radius * c1.radius by
    have := hOf_sq h
    linarith]
  exact Real.sqrt_mul_self hr1

lemma abs_z2Of {c1 c2 : CircleRef} (hr1 : 0 ≤ c1.radius)
    (h : 0 ≤ c1.radius * c1.radius - aOf c1 c2 * aOf c1 c2) :
    Complex.abs (z2Of c1 c2) = c1.radius := by
  unfold z2Of
  rw [abs_of_mk]
  rw [show aOf c1 c2 * aOf c1 c2 + hOf c1 c2 * hOf c1 c2 = c1.radius * c1.radius by
    have := hOf_sq h
    linarith]
  exact Real.sqrt_mul_self hr1

lemma abs_z3Of {c1 c2 : CircleRef} (hr2 : 0 ≤ c2.radius) (hd : 0 < dOf c1 c2)
    (h : 0 ≤ c1.radius * c1.radius - aOf c1 c2 * aOf c1 c2) :
    Complex.abs (z3Of c1 c2) = c2.radius := by
  unfold z3Of
  rw [abs_of_mk]
  have hsq := hOf_sq h
  have h2ad := two_a_d hd
  rw [show (aOf c1 c2 - dOf c1 c2) * (aOf c1 c2 - dOf c1 c2) + -hOf c1 c2 * -hOf c1 c2 =
      c2.radius * c2.radius by linear_combination hsq - h2ad]
  exact Real.sqrt_mul_self hr2

lemma abs_z4Of {c1 c2 : CircleRef} (hr2 : 0 ≤ c2.radius) (hd : 0 < dOf c1 c2)
    (h : 0 ≤ c1.radius * c1.radius - aOf c1 c2 * aOf c1 c2) :
    Complex.abs (z4Of c1 c2) = c2.radius := by
  unfold z4Of
  rw [abs_of_mk]
  have hsq := hOf_sq h
  have h2ad := two_a_d hd
  rw [show (aOf c1 c2 - dOf c1 c2) * (aOf c1 c2 - dOf c1 c2) + hOf c1 c2 * hOf c1 c2 =
      c2.radius * c2.radius by linear_combination hsq - h2ad]
  exact Real.sqrt_mul_self hr2

lemma arg_pos_of_im_pos {z : ℂ} (hz : 0 < z.im) :
    0 < Complex.arg z ∧ Complex.arg z < Real.pi := by
  have hz0 : z ≠ 0 := by
    intro hc
    rw [hc] at hz
    simp at hz
  have hsin : 0 < Real.sin (Complex.arg z) := by
    rw [Complex.sin_arg]
    exact div_pos hz (AbsoluteValue.pos Complex.abs hz0)
  have h1 := Complex.neg_pi_lt_arg z
  have h2 := Complex.arg_le_pi z
  constructor
  · by_contra hc
    push_neg at hc
    have := Real.sin_nonpos_of_nonnpos_of_neg_pi_le hc (by linarith)
    linarith
  · rcases lt_or_eq_of_le h2 with h | h
    · exact h
    · rw [h, Real.sin_pi] at hsin
      exact absurd hsin (lt_irrefl 0)

lemma arg_conj_of_ne_pi {z : ℂ} (h : Complex.arg z ≠ Real.pi) :
    Complex.arg ⟨z.re, -z.im⟩ = -Complex.arg z := by
  have hc : (⟨z.re, -z.im⟩ : ℂ) = (starRingEnd ℂ) z := by
    apply Complex.ext
    · rw [Complex.conj_re]
    · rw [Complex.conj_im]
  rw [hc, Complex.arg_conj, if_neg h]

lemma point1_sub_c1 {c1 c2 : CircleRef} (hd : 0 < dOf c1 c2) :
    (⟨(point1Of c1 c2).x - c1.center.x, (point1Of c1 c2).y - c1.center.y⟩ : ℂ) =
      (((dOf c1 c2)⁻¹ : ℝ) : ℂ) * (z1Of c1 c2 * wOf c1 c2) := by
  unfold point1Of z1Of wOf
  apply Complex.ext <;>
    simp only [Complex.mul_re, Complex.mul_im, Complex.ofReal_re, Complex.ofReal_im] <;>
    field_simp <;>
    ring

lemma point2_sub_c1 {c1 c2 : CircleRef} (hd : 0 < dOf c1 c2) :
    (⟨(point2Of c1 c2).x - c1.center.x, (point2Of c1 c2).y - c1.center.y⟩ : ℂ) =
      (((dOf c1 c2)⁻¹ : ℝ) : ℂ) * (z2Of c1 c2 * wOf c1 c2) := by
  unfold point2Of z2Of wOf
  apply Complex.ext <;>
    simp only [Complex.mul_re, Complex.mul_im, Complex.ofReal_re, Complex.ofReal_im] <;>
    field_simp <;>
    ring

lemma point1_sub_c2 {c1 c2 : CircleRef} (hd : 0 < dOf c1 c2) :
    (⟨(point1Of c1 c2).x - c2.center.x, (point1Of c1 c2).y - c2.center.y⟩ : ℂ) =
      (((dOf c1 c2)⁻¹ : ℝ) : ℂ) * (z3Of c1 c2 * wOf c1 c2) := by
  unfold point1Of z3Of wOf
  apply Complex.ext <;>
    simp only [Complex.mul_re, Complex.mul_im, Complex.ofReal_re, Complex.ofReal_im] <;>
    field_simp <;>
    ring

lemma point2_sub_c2 {c1 c2 : CircleRef} (hd : 0 < dOf c1 c2) :
    (⟨(point2Of c1 c2).x - c2.center.x, (point2Of c1 c2).y - c2.center.y⟩ : ℂ) =
      (((dOf c1 c2)⁻¹ : ℝ) : ℂ) * (z4Of c1 c2 * wOf c1 c2) := by
  unfold point2Of z4Of wOf
  apply Complex.ext <;>
    simp only [Complex.mul_re, Complex.mul_im, Complex.ofReal_re, Complex.ofReal_im] <;>
    field_simp <;>
    ring

lemma makeArc_c1_angles {c1 c2 : CircleRef} (hd : 0 < dOf c1 c2) :
    makeArc c1 (point1Of c1 c2) (point2Of c1 c2) =
      ⟨c1, Complex.arg (z1Of c1 c2 * wOf c1 c2), Complex.arg (z2Of c1 c2 * wOf c1 c2)⟩ ∧
    makeArc c1 (point2Of c1 c2) (point1Of c1 c2) =
      ⟨c1, Complex.arg (z2Of c1 c2 * wOf c1 c2), Complex.arg (z1Of c1 c2 * wOf c1 c2)⟩ := by
  have h1 : atan2 ((point1Of c1 c2).y - c1.center.y) ((point1Of c1 c2).x - c1.center.x) =
      Complex.arg (z1Of c1 c2 * wOf c1 c2) := by
    unfold atan2
    rw [point1_sub_c1 hd, Complex.arg_real_mul _ (inv_pos.2 hd)]
  have h2 : atan2 ((point2Of c1 c2).y - c1.center.y) ((point2Of c1 c2).x - c1.center.x) =
      Complex.arg (z2Of c1 c2 * wOf c1 c2) := by
    unfold atan2
    rw [point2_sub_c1 hd, Complex.arg_real_mul _ (inv_pos.2 hd)]
  unfold makeArc
  rw [h1, h2]
  exact ⟨rfl, rfl⟩

lemma makeArc_c2_angles {c1 c2 : CircleRef} (hd : 0 < dOf c1 c2) :
    makeArc c2 (point1Of c1 c2) (point2Of c1 c2) =
      ⟨c2, Complex.arg (z3Of c1 c2 * wOf c1 c2), Complex.arg (z4Of c1 c2 * wOf c1 c2)⟩ ∧
    makeArc c2 (point2Of c1 c2) (point1Of c1 c2) =
      ⟨c2, Complex.arg (z4Of c1 c2 * wOf c1 c2), Complex.arg (z3Of c1 c2 * wOf c1 c2)⟩ := by
  have h1 : atan2 ((point1Of c1 c2).y - c2.center.y) ((point1Of c1 c2).x - c2.center.x) =
      Complex.arg (z3Of c1 c2 * wOf c1 c2) := by
    unfold atan2
    rw [point1_sub_c2 hd, Complex.arg_real_mul _ (inv_pos.2 hd)]
  have h2 : atan2 ((point2Of c1 c2).y - c2.center.y) ((point2Of c1 c2).x - c2.center.x) =
      Complex.arg (z4Of c1 c2 * wOf c1 c2) := by
    unfold atan2
    rw [point2_sub_c2 hd, Complex.arg_real_mul _ (inv_pos.2 hd)]
  unfold makeArc
  rw [h1, h2]
  exact ⟨rfl, rfl⟩

lemma conj_mk_ne_zero {z : ℂ} (him : 0 < z.im) : (⟨z.re, -z.im⟩ : ℂ) ≠ 0 := by
  intro hc
  have : -z.im = 0 := congrArg Complex.im hc
  linarith

lemma z_ne_zero_of_im_pos {z : ℂ} (him : 0 < z.im) : z ≠ 0 := by
  intro hc
  rw [hc] at him
  simp at him

lemma span_conj_pair {z w : ℂ} (hw : w ≠ 0) (him : 0 < z.im) :
    spanOf (Complex.arg (⟨z.re, -z.im⟩ * w)) (Complex.arg (z * w)) = 2 * Complex.arg z ∧
    spanOf (Complex.arg (z * w)) (Complex.arg (⟨z.re, -z.im⟩ * w)) =
      TWO_PI - 2 * Complex.arg z := by
  have hψ := arg_pos_of_im_pos him
  have hz := z_ne_zero_of_im_pos him
  have hzc := conj_mk_ne_zero him
  have hargc : Complex.arg ⟨z.re, -z.im⟩ = -Complex.arg z :=
    arg_conj_of_ne_pi (ne_of_lt hψ.2)
  obtain ⟨k1, hk1⟩ := arg_mul_congr hzc hw
  obtain ⟨k2, hk2⟩ := arg_mul_congr hz hw
  constructor
  · refine spanOf_eq_of_congr (k2 - k1) ?_ (by linarith [hψ.1]) (by unfold TWO_PI; linarith [hψ.2])
    rw [hk1, hk2, hargc]
    push_cast
    ring
  · refine spanOf_eq_of_congr (k1 - k2 - 1) ?_ (by unfold TWO_PI; linarith [hψ.2])
      (by linarith [hψ.1, twoPi_pos])
    rw [hk1, hk2, hargc]
    unfold TWO_PI
    push_cast
    ring

lemma mid_cos_sin_conj_pair {z w : ℂ} (hw : w ≠ 0) (him : 0 < z.im) :
    Real.cos (Complex.arg (⟨z.re, -z.im⟩ * w) +
        spanOf (Complex.arg (⟨z.re, -z.im⟩ * w)) (Complex.arg (z * w)) / 2) =
      w.re / Complex.abs w ∧
    Real.sin (Complex.arg (⟨z.re, -z.im⟩ * w) +
        spanOf (Complex.arg (⟨z.re, -z.im⟩ * w)) (Complex.arg (z * w)) / 2) =
      w.im / Complex.abs w ∧
    Real.cos (Complex.arg (z * w) +
        spanOf (Complex.arg (z * w)) (Complex.arg (⟨z.re, -z.im⟩ * w)) / 2) =
      -(w.re / Complex.abs w) ∧
    Real.sin (Complex.arg (z * w) +
        spanOf (Complex.arg (z * w)) (Complex.arg (⟨z.re, -z.im⟩ * w)) / 2) =
      -(w.im / Complex.abs w) := by
  have hψ := arg_pos_of_im_pos him
  have hz := z_ne_zero_of_im_pos him
  have hzc := conj_mk_ne_zero him
  have hargc : Complex.arg ⟨z.re, -z.im⟩ = -Complex.arg z :=
    arg_conj_of_ne_pi (ne_of_lt hψ.2)
  obtain ⟨k1, hk1⟩ := arg_mul_congr hzc hw
  obtain ⟨k2, hk2⟩ := arg_mul_congr hz hw
  obtain ⟨hs1, hs2⟩ := span_conj_pair hw him
  have hm1 : Complex.arg (⟨z.re, -z.im⟩ * w) +
      spanOf (Complex.arg (⟨z.re, -z.im⟩ * w)) (Complex.arg (z * w)) / 2 =
      Complex.arg w + TWO_PI * (k1 : ℝ) := by
    rw [hs1, hk1, hargc]
    ring
  have hm2 : Complex.arg (z * w) +
      spanOf (Complex.arg (z * w)) (Complex.arg (⟨z.re, -z.im⟩ * w)) / 2 =
      (Complex.arg w + Real.pi) + TWO_PI * (k2 : ℝ) := by
    rw [hs2, hk2]
    unfold TWO_PI
    ring
  refine ⟨?_, ?_, ?_, ?_⟩
  · rw [cos_eq_of_congr k1 hm1, Complex.cos_arg hw]
  · rw [sin_eq_of_congr k1 hm1, Complex.sin_arg]
  · rw [cos_eq_of_congr k2 hm2, Real.cos_add_pi, Complex.cos_arg hw]
  · rw [sin_eq_of_congr k2 hm2, Real.sin_add_pi, Complex.sin_arg]

lemma isMidpointInside_eval {c other : CircleRef} {θ₁ θ₂ vx vy : ℝ}
    (hcos : Real.cos (θ₁ + spanOf θ₁ θ₂ / 2) = vx)
    (hsin : Real.sin (θ₁ + spanOf θ₁ θ₂ / 2) = vy) :
    isMidpointInside ⟨c, θ₁, θ₂⟩ other ↔
      Real.sqrt ((c.center.x + c.radius * vx - other.center.x) ^ 2 +
        (c.center.y + c.radius * vy - other.center.y) ^ 2) < other.radius := by
  unfold isMidpointInside
  simp only
  obtain ⟨k, hk⟩ := mid_congr θ₁ θ₂
  rw [cos_eq_of_congr k hk, sin_eq_of_congr k hk, hcos, hsin]

lemma sqrt_scaled_d (t : ℝ) (c1 c2 : CircleRef) :
    Real.sqrt ((t * (c2.center.x - c1.center.x)) ^ 2 + (t * (c2.center.y - c1.center.y)) ^ 2) =
      |t| * dOf c1 c2 := by
  rw [sqrt_scaled]
  rfl

lemma midpoint_tests {c1 c2 : CircleRef}
    (hr1 : 0 < c1.radius) (hr2 : 0 < c2.radius)
    (hlo : |c1.radius - c2.radius| < dOf c1 c2) (hhi : dOf c1 c2 < c1.radius + c2.radius) :
    isMidpointInside ⟨c1, Complex.arg (z1Of c1 c2 * wOf c1 c2),
      Complex.arg (z2Of c1 c2 * wOf c1 c2)⟩ c2 ∧
    ¬ isMidpointInside ⟨c1, Complex.arg (z2Of c1 c2 * wOf c1 c2),
      Complex.arg (z1Of c1 c2 * wOf c1 c2)⟩ c2 ∧
    ¬ isMidpointInside ⟨c2, Complex.arg (z3Of c1 c2 * wOf c1 c2),
      Complex.arg (z4Of c1 c2 * wOf c1 c2)⟩ c1 ∧
    isMidpointInside ⟨c2, Complex.arg (z4Of c1 c2 * wOf c1 c2),
      Complex.arg (z3Of c1 c2 * wOf c1 c2)⟩ c1 := by
  have hd : 0 < dOf c1 c2 := lt_of_le_of_lt (abs_nonneg _) hlo
  have hd0 : dOf c1 c2 ≠ 0 := ne_of_gt hd
  have hsqpos := h_sq_pos hlo hhi
  have hh : 0 < hOf c1 c2 := by
    unfold hOf
    exact Real.sqrt_pos.2 hsqpos
  have hw0 := wOf_ne_zero hd
  have habs := abs_lt.1 hlo
  have him2 : 0 < (z2Of c1 c2).im := hh
  have him4 : 0 < (z4Of c1 c2).im := hh
  obtain ⟨hcA, hsA, hcB, hsB⟩ := mid_cos_sin_conj_pair hw0 him2
  obtain ⟨hcC, hsC, hcD, hsD⟩ := mid_cos_sin_conj_pair hw0 him4
  rw [show (⟨(z2Of c1 c2).re, -(z2Of c1 c2).im⟩ : ℂ) = z1Of c1 c2 from rfl]
    at hcA hsA hcB hsB
  rw [show (⟨(z4Of c1 c2).re, -(z4Of c1 c2).im⟩ : ℂ) = z3Of c1 c2 from rfl]
    at hcC hsC hcD hsD
  rw [abs_wOf] at hcA hsA hcB hsB hcC hsC hcD hsD
  refine ⟨?_, ?_, ?_, ?_⟩
  · rw [isMidpointInside_eval hcA hsA]
    have e1 : c1.center.x + c1.radius * ((wOf c1 c2).re / dOf c1 c2) - c2.center.x =
        (c1.radius / dOf c1 c2 - 1) * (c2.center.x - c1.center.x) := by
      unfold wOf
      field_simp
      ring
    have e2 : c1.center.y + c1.radius * ((wOf c1 c2).im / dOf c1 c2) - c2.center.y =
        (c1.radius / dOf c1 c2 - 1) * (c2.center.y - c1.center.y) := by
      unfold wOf
      field_simp
      ring
    rw [e1, e2, sqrt_scaled_d]
    rw [show c1.radius / dOf c1 c2 - 1 = (c1.radius - dOf c1 c2) / dOf c1 c2 by field_simp,
      abs_div, abs_of_pos hd, div_mul_cancel₀ _ hd0, abs_lt]
    constructor <;> linarith [habs.2]
  · rw [isMidpointInside_eval hcB hsB]
    have e1 : c1.center.x + c1.radius * -((wOf c1 c2).re / dOf c1 c2) - c2.center.x =
        (-(c1.radius / dOf c1 c2) - 1) * (c2.center.x - c1.center.x) := by
      unfold wOf
      field_simp
      ring
    have e2 : c1.center.y + c1.radius * -((wOf c1 c2).im / dOf c1 c2) - c2.center.y =
        (-(c1.radius / dOf c1 c2) - 1) * (c2.center.y - c1.center.y) := by
      unfold wOf
      field_simp
      ring
    rw [e1, e2, sqrt_scaled_d]
    have hng : -(c1.radius / dOf c1 c2) - 1 < 0 := by
      have : 0 < c1.radius / dOf c1 c2 := div_pos hr1 hd
      linarith
    rw [abs_of_neg hng]
    push_neg
    rw [show (-(-(c1.radius / dOf c1 c2) - 1)) * dOf c1 c2 = c1.radius + dOf c1 c2 by
      field_simp
      ring]
    linarith [habs.1]
  · rw [isMidpointInside_eval hcC hsC]
    have e1 : c2.center.x + c2.radius * ((wOf c1 c2).re / dOf c1 c2) - c1.center.x =
        (1 + c2.radius / dOf c1 c2) * (c2.center.x - c1.center.x) := by
      unfold wOf
      field_simp
      ring
    have e2 : c2.center.y + c2.radius * ((wOf c1 c2).im / dOf c1 c2) - c1.center.y =
        (1 + c2.radius / dOf c1 c2) * (c2.center.y - c1.center.y) := by
      unfold wOf
      field_simp
      ring
    rw [e1, e2, sqrt_scaled_d]
    have hpos : 0 < 1 + c2.radius / dOf c1 c2 := by
      have : 0 < c2.radius / dOf c1 c2 := div_pos hr2 hd
      linarith
    rw [abs_of_pos hpos]
    push_neg
    rw [show (1 + c2.radius / dOf c1 c2) * dOf c1 c2 = dOf c1 c2 + c2.radius by
      field_simp]
    linarith [habs.2]
  · rw [isMidpointInside_eval hcD hsD]
    have e1 : c2.center.x + c2.radius * -((wOf c1 c2).re / dOf c1 c2) - c1.center.x =
        (1 - c2.radius / dOf c1 c2) * (c2.center.x - c1.center.x) := by
      unfold wOf
      field_simp
      ring
    have e2 : c2.center.y + c2.radius * -((wOf c1 c2).im / dOf c1 c2) - c1.center.y =
        (1 - c2.radius / dOf c1 c2) * (c2.center.y - c1.center.y) := by
      unfold wOf
      field_simp
      ring
    rw [e1, e2, sqrt_scaled_d]
    rw [show (1 : ℝ) - c2.radius / dOf c1 c2 = (dOf c1 c2 - c2.radius) / dOf c1 c2 by
      field_simp, abs_div, abs_of_pos hd, div_mul_cancel₀ _ hd0, abs_lt]
    constructor <;> linarith [habs.1]

/-- C1: for circles with a genuine two-point crossing
(`|r1 - r2| < d < r1 + r2`, positive radii), `intersectTwoCircles` returns
exactly the two candidate arcs whose directed angular midpoints map to points
strictly inside the other circle — the arc of circle 1 from p1 to p2 and the
arc of circle 2 from p2 to p1 — and discards the other two candidates, whose
midpoint tests fail. -/
theorem c1_intersectTwoCircles_genuine (c1 c2 : CircleRef)
    (hr1 : 0 < c1.radius) (hr2 : 0 < c2.radius)
    (hlo : |c1.radius - c2.radius| < dOf c1 c2) (hhi : dOf c1 c2 < c1.radius + c2.radius) :
    ∃ p1 p2 : IPoint, getCircleIntersections c1 c2 = [p1, p2] ∧
      intersectTwoCircles c1 c2 = [makeArc c1 p1 p2, makeArc c2 p2 p1] ∧
      (makeArc c1 p1 p2).circle = c1 ∧ (makeArc c2 p2 p1).circle = c2 ∧
      isMidpointInside (makeArc c1 p1 p2) c2 ∧ ¬ isMidpointInside (makeArc c1 p2 p1) c2 ∧
      ¬ isMidpointInside (makeArc c2 p1 p2) c1 ∧ isMidpointInside (makeArc c2 p2 p1) c1 := by
  have hd : 0 < dOf c1 c2 := lt_of_le_of_lt (abs_nonneg _) hlo
  have hpts := getCircleIntersections_eq c1 c2
    (by push_neg; exact ⟨le_of_lt hhi, le_of_lt hlo⟩)
  obtain ⟨hm1, hm2⟩ := makeArc_c1_angles hd
  obtain ⟨hm3, hm4⟩ := makeArc_c2_angles hd
  obtain ⟨ht1, ht2, ht3, ht4⟩ := midpoint_tests hr1 hr2 hlo hhi
  refine ⟨point1Of c1 c2, point2Of c1 c2, hpts, ?_, ?_, ?_, ?_, ?_, ?_, ?_⟩
  · unfold intersectTwoCircles
    rw [hpts]
    simp only
    rw [hm1, hm2, hm3, hm4]
    rw [if_pos ht1, if_neg ht2, if_neg ht3, if_pos ht4]
    simp
  · rw [hm1]
  · rw [hm4]
  · rw [hm1]
    exact ht1
  · rw [hm2]
    exact ht2
  · rw [hm3]
    exact ht3
  · rw [hm4]
    exact ht4

/-- Witness for C1 at circles of radius 50 centered at (0,0) and (60,0)
(spec scenario A). -/
theorem c1_intersectTwoCircles_genuine_witness :
    ((0 : ℝ) < (⟨0, ⟨0, 0⟩, 50⟩ : CircleRef).radius ∧
      (0 : ℝ) < (⟨1, ⟨60, 0⟩, 50⟩ : CircleRef).radius ∧
      |(⟨0, ⟨0, 0⟩, 50⟩ : CircleRef).radius - (⟨1, ⟨60, 0⟩, 50⟩ : CircleRef).radius| <
        dOf ⟨0, ⟨0, 0⟩, 50⟩ ⟨1, ⟨60, 0⟩, 50⟩ ∧
      dOf ⟨0, ⟨0, 0⟩, 50⟩ ⟨1, ⟨60, 0⟩, 50⟩ <
        (⟨0, ⟨0, 0⟩, 50⟩ : CircleRef).radius + (⟨1, ⟨60, 0⟩, 50⟩ : CircleRef).radius) ∧
    (∃ p1 p2 : IPoint,
      getCircleIntersections ⟨0, ⟨0, 0⟩, 50⟩ ⟨1, ⟨60, 0⟩, 50⟩ = [p1, p2] ∧
      intersectTwoCircles ⟨0, ⟨0, 0⟩, 50⟩ ⟨1, ⟨60, 0⟩, 50⟩ =
        [makeArc ⟨0, ⟨0, 0⟩, 50⟩ p1 p2, makeArc ⟨1, ⟨60, 0⟩, 50⟩ p2 p1] ∧
      (makeArc ⟨0, ⟨0, 0⟩, 50⟩ p1 p2).circle = ⟨0, ⟨0, 0⟩, 50⟩ ∧
      (makeArc ⟨1, ⟨60, 0⟩, 50⟩ p2 p1).circle = ⟨1, ⟨60, 0⟩, 50⟩ ∧
      isMidpointInside (makeArc ⟨0, ⟨0, 0⟩, 50⟩ p1 p2) ⟨1, ⟨60, 0⟩, 50⟩ ∧
      ¬ isMidpointInside (makeArc ⟨0, ⟨0, 0⟩, 50⟩ p2 p1) ⟨1, ⟨60, 0⟩, 50⟩ ∧
      ¬ isMidpointInside (makeArc ⟨1, ⟨60, 0⟩, 50⟩ p1 p2) ⟨0, ⟨0, 0⟩, 50⟩ ∧
      isMidpointInside (makeArc ⟨1, ⟨60, 0⟩, 50⟩ p2 p1) ⟨0, ⟨0, 0⟩, 50⟩) := by
  have hd : dOf ⟨0, ⟨0, 0⟩, 50⟩ ⟨1, ⟨60, 0⟩, 50⟩ = 60 := by
    unfold dOf
    rw [show ((60 : ℝ) - 0) * (60 - 0) + (0 - 0) * (0 - 0) = 3600 by norm_num]
    rw [Real.sqrt_eq_cases]
    left
    norm_num
  constructor
  · refine ⟨by norm_num, by norm_num, ?_, ?_⟩ <;> rw [hd] <;> norm_num
  · exact c1_intersectTwoCircles_genuine ⟨0, ⟨0, 0⟩, 50⟩ ⟨1, ⟨60, 0⟩, 50⟩
      (by norm_num) (by norm_num) (by rw [hd]; norm_num) (by rw [hd]; norm_num)

lemma sqrt_sq_add_sq (x y : ℝ) : Real.sqrt (x ^ 2 + y ^ 2) = Complex.abs ⟨x, y⟩ := by
  rw [abs_of_mk, show x * x + y * y = x ^ 2 + y ^ 2 by ring]

lemma isMidpointInside_zero_span {c other : CircleRef} {θ : ℝ} (v : ℂ)
    (hθ : θ = Complex.arg v) (habs : Complex.abs v = c.radius) :
    isMidpointInside ⟨c, θ, θ⟩ other ↔
      Real.sqrt ((c.center.x + v.re - other.center.x) ^ 2 +
        (c.center.y + v.im - other.center.y) ^ 2) < other.radius := by
  have hcos : Real.cos (θ + spanOf θ θ / 2) = Real.cos (Complex.arg v) := by
    rw [spanOf_self, hθ]
    norm_num
  have hsin : Real.sin (θ + spanOf θ θ / 2) = Real.sin (Complex.arg v) := by
    rw [spanOf_self, hθ]
    norm_num
  rw [isMidpointInside_eval hcos hsin]
  rw [show c.radius * Real.cos (Complex.arg v) = v.re by rw [← habs]; exact abs_mul_cos_arg v,
    show c.radius * Real.sin (Complex.arg v) = v.im by rw [← habs]; exact abs_mul_sin_arg v]

lemma h_sq_factored {c1 c2 : CircleRef} (hd : 0 < dOf c1 c2) :
    4 * (dOf c1 c2 * dOf c1 c2) * (c1.radius * c1.radius - aOf c1 c2 * aOf c1 c2) =
      (c1.radius + c2.radius - dOf c1 c2) * ((c2.radius + dOf c1 c2 - c1.radius) *
        ((dOf c1 c2 + c1.radius - c2.radius) * (dOf c1 c2 + c1.radius + c2.radius))) := by
  linear_combination (-(2 * aOf c1 c2 * dOf c1 c2 +
    (dOf c1 c2 * dOf c1 c2 - c2.radius * c2.radius + c1.radius * c1.radius))) * (two_a_d hd)

lemma intersectTwoCircles_tangent (c1 c2 : CircleRef)
    (hr1 : 0 < c1.radius) (hr2 : 0 < c2.radius) (hd : 0 < dOf c1 c2)
    (htan : dOf c1 c2 = c1.radius + c2.radius ∨ dOf c1 c2 = |c1.radius - c2.radius|) :
    intersectTwoCircles c1 c2 = [] := by
  have hd0 : dOf c1 c2 ≠ 0 := ne_of_gt hd
  have h2ad := two_a_d hd
  have habsr : |c1.radius - c2.radius| < c1.radius + c2.radius := by
    rcases abs_cases (c1.radius - c2.radius) with ⟨h, _⟩ | ⟨h, _⟩ <;> rw [h] <;> linarith
  have hnd : ¬(dOf c1 c2 > c1.radius + c2.radius ∨ dOf c1 c2 < |c1.radius - c2.radius|) := by
    push_neg
    rcases htan with h | h <;> rw [h]
    · exact ⟨le_refl _, le_of_lt habsr⟩
    · exact ⟨le_of_lt habsr, le_refl _⟩
  have hsq0 : c1.radius * c1.radius - aOf c1 c2 * aOf c1 c2 = 0 := by
    have hkey := h_sq_factored hd
    have hzero : (c1.radius + c2.radius - dOf c1 c2) * ((c2.radius + dOf c1 c2 - c1.radius) *
        ((dOf c1 c2 + c1.radius - c2.radius) * (dOf c1 c2 + c1.radius + c2.radius))) = 0 := by
      rcases htan with h | h
      · rw [show c1.radius + c2.radius - dOf c1 c2 = 0 by rw [h]; ring]
        ring
      · rcases abs_cases (c1.radius - c2.radius) with ⟨ha, _⟩ | ⟨ha, _⟩ <;> rw [ha] at h
        · rw [show c2.radius + dOf c1 c2 - c1.radius = 0 by rw [h]; ring]
          ring
        · rw [show dOf c1 c2 + c1.radius - c2.radius = 0 by rw [h]; ring]
          ring
    rw [hzero] at hkey
    have h4d : 4 * (dOf c1 c2 * dOf c1 c2) ≠ 0 := by positivity
    exact (mul_eq_zero.1 hkey).resolve_left h4d
  have hsqle : 0 ≤ c1.radius * c1.radius - aOf c1 c2 * aOf c1 c2 := le_of_eq hsq0.symm
  have hh0 : hOf c1 c2 = 0 := by
    unfold hOf
    rw [hsq0, Real.sqrt_zero]
  have hz12 : z1Of c1 c2 = z2Of c1 c2 := by
    unfold z1Of z2Of
    rw [hh0]
    norm_num
  have hz34 : z3Of c1 c2 = z4Of c1 c2 := by
    unfold z3Of z4Of
    rw [hh0]
    norm_num
  have habs1 := abs_z1Of (le_of_lt hr1) hsqle
  have habs3 := abs_z3Of (le_of_lt hr2) hd hsqle
  have habsw := abs_wOf c1 c2
  have hw0 := wOf_ne_zero hd
  set v1 : ℂ := ⟨(point1Of c1 c2).x - c1.center.x, (point1Of c1 c2).y - c1.center.y⟩ with hv1
  set v3 : ℂ := ⟨(point1Of c1 c2).x - c2.center.x, (point1Of c1 c2).y - c2.center.y⟩ with hv3
  have hv1e : v1 = (((dOf c1 c2)⁻¹ : ℝ) : ℂ) * (z1Of c1 c2 * wOf c1 c2) := point1_sub_c1 hd
  have hv3e : v3 = (((dOf c1 c2)⁻¹ : ℝ) : ℂ) * (z3Of c1 c2 * wOf c1 c2) := point1_sub_c2 hd
  have habsv1 : Complex.abs v1 = c1.radius := by
    rw [hv1e, map_mul, map_mul, Complex.abs_ofReal, habs1, habsw,
      abs_of_pos (inv_pos.2 hd)]
    field_simp
  have habsv3 : Complex.abs v3 = c2.radius := by
    rw [hv3e, map_mul, map_mul, Complex.abs_ofReal, habs3, habsw,
      abs_of_pos (inv_pos.2 hd)]
    field_simp
  have hθ1 : Complex.arg (z1Of c1 c2 * wOf c1 c2) = Complex.arg v1 := by
    rw [hv1e, Complex.arg_real_mul _ (inv_pos.2 hd)]
  have hθ3 : Complex.arg (z3Of c1 c2 * wOf c1 c2) = Complex.arg v3 := by
    rw [hv3e, Complex.arg_real_mul _ (inv_pos.2 hd)]
  have htest1 : ¬ isMidpointInside ⟨c1, Complex.arg (z1Of c1 c2 * wOf c1 c2),
      Complex.arg (z1Of c1 c2 * wOf c1 c2)⟩ c2 := by
    rw [isMidpointInside_zero_span v1 hθ1 habsv1]
    rw [show c1.center.x + v1.re - c2.center.x = (point1Of c1 c2).x - c2.center.x by
      rw [hv1]; simp,
      show c1.center.y + v1.im - c2.center.y = (point1Of c1 c2).y - c2.center.y by
      rw [hv1]; simp]
    rw [sqrt_sq_add_sq]
    rw [show (⟨(point1Of c1 c2).x - c2.center.x, (point1Of c1 c2).y - c2.center.y⟩ : ℂ) =
      v3 from hv3.symm]
    rw [habsv3]
    exact lt_irrefl _
  have htest3 : ¬ isMidpointInside ⟨c2, Complex.arg (z3Of c1 c2 * wOf c1 c2),
      Complex.arg (z3Of c1 c2 * wOf c1 c2)⟩ c1 := by
    rw [isMidpointInside_zero_span v3 hθ3 habsv3]
    rw [show c2.center.x + v3.re - c1.center.x = (point1Of c1 c2).x - c1.center.x by
      rw [hv3]; simp,
      show c2.center.y + v3.im - c1.center.y = (point1Of c1 c2).y - c1.center.y by
      rw [hv3]; simp]
    rw [sqrt_sq_add_sq]
    rw [show (⟨(point1Of c1 c2).x - c1.center.x, (point1Of c1 c2).y - c1.center.y⟩ : ℂ) =
      v1 from hv1.symm]
    rw [habsv1]
    exact lt_irrefl _
  obtain ⟨hm1, hm2⟩ := makeArc_c1_angles hd
  obtain ⟨hm3, hm4⟩ := makeArc_c2_angles hd
  unfold intersectTwoCircles
  rw [getCircleIntersections_eq c1 c2 hnd]
  simp only
  rw [hm1, hm2, hm3, hm4, hz12, hz34]
  rw [hz12] at htest1
  rw [hz34] at htest3
  rw [if_neg htest1, if_neg htest3]
  simp

lemma atan2_zero_zero : atan2 0 0 = 0 := by
  unfold atan2
  rw [show (⟨0, 0⟩ : ℂ) = 0 from by apply Complex.ext <;> simp]
  exact Complex.arg_zero

lemma notMidInside_concentric_zero (c other : CircleRef) (hco : other.center = c.center)
    (hrr : other.radius = c.radius) (hcr : 0 ≤ c.radius) :
    ¬ isMidpointInside ⟨c, 0, 0⟩ other := by
  intro hcontra
  have hc : Real.cos ((0 : ℝ) + spanOf 0 0 / 2) = 1 := by
    rw [spanOf_self]
    norm_num
  have hs : Real.sin ((0 : ℝ) + spanOf 0 0 / 2) = 0 := by
    rw [spanOf_self]
    norm_num
  rw [isMidpointInside_eval hc hs, hco, hrr] at hcontra
  rw [show c.center.x + c.radius * 1 - c.center.x = c.radius by ring,
    show c.center.y + c.radius * 0 - c.center.y = 0 by ring] at hcontra
  rw [show c.radius ^ 2 + (0 : ℝ) ^ 2 = c.radius ^ 2 by ring, Real.sqrt_sq hcr] at hcontra
  exact lt_irrefl _ hcontra

lemma intersectTwoCircles_concentric (c1 c2 : CircleRef)
    (hr1 : 0 < c1.radius) (hreq : c1.radius = c2.radius) (hd : dOf c1 c2 = 0) :
    intersectTwoCircles c1 c2 = [] := by
  have hsum : (c2.center.x - c1.center.x) * (c2.center.x - c1.center.x) +
      (c2.center.y - c1.center.y) * (c2.center.y - c1.center.y) = 0 := by
    have hds := dOf_sq c1 c2
    rw [hd] at hds
    linarith [hds]
  have hdx : c2.center.x - c1.center.x = 0 := by
    nlinarith [mul_self_nonneg (c2.center.x - c1.center.x),
      mul_self_nonneg (c2.center.y - c1.center.y)]
  have hdy : c2.center.y - c1.center.y = 0 := by
    nlinarith [mul_self_nonneg (c2.center.x - c1.center.x),
      mul_self_nonneg (c2.center.y - c1.center.y)]
  have hcx : c2.center.x = c1.center.x := by linarith
  have hcy : c2.center.y = c1.center.y := by linarith
  have hctr : c2.center = c1.center := by
    rw [show c2.center = ⟨c2.center.x, c2.center.y⟩ from rfl, hcx, hcy]
  have hnd : ¬(dOf c1 c2 > c1.radius + c2.radius ∨ dOf c1 c2 < |c1.radius - c2.radius|) := by
    push_neg
    rw [hd, hreq, sub_self, abs_zero]
    constructor
    · linarith
    · exact le_refl 0
  have ha : aOf c1 c2 = 0 := by
    unfold aOf
    rw [hd, hreq]
    norm_num
  have hp1 : point1Of c1 c2 = ⟨c1.center.x, c1.center.y⟩ := by
    unfold point1Of
    rw [ha, hd, hdx, hdy]
    norm_num
  have hp2 : point2Of c1 c2 = ⟨c1.center.x, c1.center.y⟩ := by
    unfold point2Of
    rw [ha, hd, hdx, hdy]
    norm_num
  have hmk1 : makeArc c1 ⟨c1.center.x, c1.center.y⟩ ⟨c1.center.x, c1.center.y⟩ =
      ⟨c1, 0, 0⟩ := by
    unfold makeArc
    simp [atan2_zero_zero]
  have hmk2 : makeArc c2 ⟨c1.center.x, c1.center.y⟩ ⟨c1.center.x, c1.center.y⟩ =
      ⟨c2, 0, 0⟩ := by
    unfold makeArc
    simp [hcx, hcy, atan2_zero_zero]
  have ht1 : ¬ isMidpointInside ⟨c1, 0, 0⟩ c2 :=
    notMidInside_concentric_zero c1 c2 hctr hreq.symm hr1.le
  have ht2 : ¬ isMidpointInside ⟨c2, 0, 0⟩ c1 :=
    notMidInside_concentric_zero c2 c1 hctr.symm hreq (by rw [← hreq]; exact hr1.le)
  unfold intersectTwoCircles
  rw [getCircleIntersections_eq c1 c2 hnd, hp1, hp2]
  simp only
  rw [hmk1, hmk2]
  rw [if_neg ht1, if_neg ht2]
  simp

/-- C2: for every degenerate circle pair — centers too far apart
(`d > r1 + r2`), one circle nested in the other (`d < |r1 - r2|`), externally
or internally tangent (`d = r1 + r2` or `d = |r1 - r2|`), or concentric
(`d = 0`, covered by `d ≤ |r1 - r2|`) — `intersectTwoCircles` returns the
empty list: a valid no-overlap outcome, not an error. -/
theorem c2_degenerate_pair_empty (c1 c2 : CircleRef)
    (hr1 : 0 < c1.radius) (hr2 : 0 < c2.radius)
    (hdeg : dOf c1 c2 ≥ c1.radius + c2.radius ∨ dOf c1 c2 ≤ |c1.radius - c2.radius|) :
    intersectTwoCircles c1 c2 = [] := by
  rcases hdeg with h | h
  · rcases lt_or_eq_of_le h with hgt | heq
    · unfold intersectTwoCircles
      rw [getCircleIntersections_empty c1 c2 (Or.inl hgt)]
    · exact intersectTwoCircles_tangent c1 c2 hr1 hr2
        (by rw [← heq]; linarith) (Or.inl heq.symm)
  · rcases lt_or_eq_of_le h with hlt | heq
    · unfold intersectTwoCircles
      rw [getCircleIntersections_empty c1 c2 (Or.inr hlt)]
    · rcases lt_or_eq_of_le (dOf_nonneg c1 c2) with hdpos | hdzero
      · exact intersectTwoCircles_tangent c1 c2 hr1 hr2 hdpos (Or.inr heq)
      · have habs0 : |c1.radius - c2.radius| = 0 := by rw [← heq, ← hdzero]
        have hreq : c1.radius = c2.radius := by
          have := abs_eq_zero.1 habs0
          linarith
        exact intersectTwoCircles_concentric c1 c2 hr1 hreq hdzero.symm

/-- Witness for C2 at two far-apart unit circles. -/
theorem c2_degenerate_pair_empty_witness :
    ((0 : ℝ) < (⟨0, ⟨0, 0⟩, 1⟩ : CircleRef).radius ∧
      (0 : ℝ) < (⟨1, ⟨10, 0⟩, 1⟩ : CircleRef).radius ∧
      (dOf ⟨0, ⟨0, 0⟩, 1⟩ ⟨1, ⟨10, 0⟩, 1⟩ ≥
          (⟨0, ⟨0, 0⟩, 1⟩ : CircleRef).radius + (⟨1, ⟨10, 0⟩, 1⟩ : CircleRef).radius ∨
        dOf ⟨0, ⟨0, 0⟩, 1⟩ ⟨1, ⟨10, 0⟩, 1⟩ ≤
          |(⟨0, ⟨0, 0⟩, 1⟩ : CircleRef).radius - (⟨1, ⟨10, 0⟩, 1⟩ : CircleRef).radius|)) ∧
    intersectTwoCircles ⟨0, ⟨0, 0⟩, 1⟩ ⟨1, ⟨10, 0⟩, 1⟩ = [] := by
  have hd : dOf ⟨0, ⟨0, 0⟩, 1⟩ ⟨1, ⟨10, 0⟩, 1⟩ = 10 := by
    unfold dOf
    rw [show ((10 : ℝ) - 0) * (10 - 0) + (0 - 0) * (0 - 0) = 100 by norm_num]
    rw [Real.sqrt_eq_cases]
    left
    norm_num
  refine ⟨⟨by norm_num, by norm_num, Or.inl (by rw [hd]; norm_num)⟩, ?_⟩
  exact c2_degenerate_pair_empty ⟨0, ⟨0, 0⟩, 1⟩ ⟨1, ⟨10, 0⟩, 1⟩ (by norm_num) (by norm_num)
    (Or.inl (by rw [hd]; norm_num))

/-! ### Claim C8: checkIntersection versus checkLoss -/

lemma arg_fifty : Complex.arg ⟨50, 0⟩ = 0 := by
  rw [show (⟨50, 0⟩ : ℂ) = ((50 : ℝ) : ℂ) from by apply Complex.ext <;> simp]
  exact Complex.arg_ofReal_of_nonneg (by norm_num)

lemma c8_candidates :
    getLineCircleIntersections ⟨⟨40, 0⟩, ⟨60, 0⟩⟩ ⟨0, ⟨0, 0⟩, 50⟩ =
      [some ⟨50, 0⟩, some ⟨-50, 0⟩] := by
  unfold getLineCircleIntersections
  dsimp only
  rw [show ((60:ℝ) - 0 - (40 - 0)) * (60 - 0 - (40 - 0)) +
      ((0:ℝ) - 0 - (0 - 0)) * (0 - 0 - (0 - 0)) = 400 by norm_num]
  rw [show Real.sqrt 400 = 20 from by rw [Real.sqrt_eq_cases]; left; norm_num]
  rw [show Real.sqrt ((50:ℝ) * 50 * 20 * 20 -
      ((40 - 0) * (0 - 0) - (60 - 0) * (0 - 0)) * ((40 - 0) * (0 - 0) - (60 - 0) * (0 - 0))) =
      1000 from by
    rw [show (50:ℝ) * 50 * 20 * 20 -
      ((40 - 0) * (0 - 0) - (60 - 0) * (0 - 0)) * ((40 - 0) * (0 - 0) - (60 - 0) * (0 - 0)) =
      1000000 by norm_num]
    rw [Real.sqrt_eq_cases]
    left
    norm_num]
  norm_num

lemma c8_onSegment_fifty :
    isPointOnLineSegment ⟨50, 0⟩ ⟨⟨40, 0⟩, ⟨60, 0⟩⟩ := by
  unfold isPointOnLineSegment
  norm_num

lemma c8_not_onSegment_neg :
    ¬ isPointOnLineSegment ⟨-50, 0⟩ ⟨⟨40, 0⟩, ⟨60, 0⟩⟩ := by
  unfold isPointOnLineSegment
  norm_num

lemma c8_onArc_full :
    isPointOnArc ⟨50, 0⟩ ⟨⟨0, ⟨0, 0⟩, 50⟩, 0, TWO_PI⟩ := by
  unfold isPointOnArc
  simp only
  rw [show (50 : ℝ) - 0 = 50 by norm_num, show (0 : ℝ) - 0 = 0 by norm_num]
  rw [show atan2 0 50 = 0 from arg_fifty]
  rw [jsNormalize_zero, jsNormalize_twoPi]
  rw [if_neg (lt_irrefl 0)]
  left
  exact le_refl 0

lemma c8_onArc_cut :
    isPointOnArc ⟨50, 0⟩ ⟨⟨0, ⟨0, 0⟩, 50⟩, 5.5, 1⟩ := by
  have h2p := twoPi_gt
  unfold isPointOnArc
  simp only
  rw [show (50 : ℝ) - 0 = 50 by norm_num, show (0 : ℝ) - 0 = 0 by norm_num]
  rw [show atan2 0 50 = 0 from arg_fifty]
  rw [jsNormalize_zero, jsNormalize_of_Ico (by norm_num) (by linarith),
    jsNormalize_of_Ico (by norm_num) (by linarith)]
  rw [if_neg (by norm_num)]
  right
  norm_num

lemma c8_not_onArc_rest :
    ¬ isPointOnArc ⟨50, 0⟩ ⟨⟨0, ⟨0, 0⟩, 50⟩, 1, 5.5⟩ := by
  have h2p := twoPi_gt
  unfold isPointOnArc
  simp only
  rw [show (50 : ℝ) - 0 = 50 by norm_num, show (0 : ℝ) - 0 = 0 by norm_num]
  rw [show atan2 0 50 = 0 from arg_fifty]
  rw [jsNormalize_zero, jsNormalize_of_Ico (by norm_num) (by linarith),
    jsNormalize_of_Ico (by norm_num) (by linarith)]
  rw [if_pos (by norm_num)]
  push_neg
  intro h
  norm_num at h

lemma c8_hits_full :
    lineIntersectsArc ⟨⟨40, 0⟩, ⟨60, 0⟩⟩ ⟨⟨0, ⟨0, 0⟩, 50⟩, 0, TWO_PI⟩ := by
  unfold lineIntersectsArc
  rw [show (⟨⟨0, ⟨0, 0⟩, 50⟩, 0, TWO_PI⟩ : IArc).circle = ⟨0, ⟨0, 0⟩, 50⟩ from rfl,
    c8_candidates]
  exact ⟨some ⟨50, 0⟩, by simp, ⟨50, 0⟩, rfl, c8_onSegment_fifty, c8_onArc_full⟩

lemma c8_hits_cut :
    lineIntersectsArc ⟨⟨40, 0⟩, ⟨60, 0⟩⟩ ⟨⟨0, ⟨0, 0⟩, 50⟩, 5.5, 1⟩ := by
  unfold lineIntersectsArc
  rw [show (⟨⟨0, ⟨0, 0⟩, 50⟩, 5.5, 1⟩ : IArc).circle = ⟨0, ⟨0, 0⟩, 50⟩ from rfl,
    c8_candidates]
  exact ⟨some ⟨50, 0⟩, by simp, ⟨50, 0⟩, rfl, c8_onSegment_fifty, c8_onArc_cut⟩

lemma c8_misses_rest :
    ¬ lineIntersectsArc ⟨⟨40, 0⟩, ⟨60, 0⟩⟩ ⟨⟨0, ⟨0, 0⟩, 50⟩, 1, 5.5⟩ := by
  unfold lineIntersectsArc
  rw [show (⟨⟨0, ⟨0, 0⟩, 50⟩, 1, 5.5⟩ : IArc).circle = ⟨0, ⟨0, 0⟩, 50⟩ from rfl,
    c8_candidates]
  rintro ⟨op, hop, p, hsome, hseg, harc⟩
  simp only [List.mem_cons, List.mem_singleton, List.not_mem_nil, or_false] at hop
  rcases hop with h | h
  · rw [h] at hsome
    injection hsome with hp
    subst hp
    exact c8_not_onArc_rest harc
  · rw [h] at hsome
    injection hsome with hp
    subst hp
    exact c8_not_onSegment_neg hseg

lemma c8_subtract :
    subtractArc ⟨⟨0, ⟨0, 0⟩, 50⟩, 0, TWO_PI⟩ ⟨⟨0, ⟨0, 0⟩, 50⟩, 5.5, 1⟩ =
      [⟨⟨0, ⟨0, 0⟩, 50⟩, 1, 5.5⟩] := by
  have h2p := twoPi_gt
  unfold subtractArc bIntervalsOf
  simp only
  rw [jsNormalize_of_Ico (by norm_num) (by linarith),
    jsNormalize_of_Ico (by norm_num) (by linarith)]
  rw [if_neg (by norm_num : ¬((1 : ℝ) ≥ 5.5))]
  simp only [List.foldl_cons, List.foldl_nil, List.flatMap_cons, List.flatMap_nil,
    List.append_nil]
  rw [show subtractInterval 0 TWO_PI 5.5 TWO_PI = [((0 : ℝ), (5.5 : ℝ))] from by
    unfold subtractInterval
    rw [if_neg (by push_neg; constructor <;> linarith),
      if_neg (by intro hc; linarith [hc.1]),
      if_neg (by intro hc; linarith [hc.1]),
      if_pos ⟨by norm_num, le_refl TWO_PI⟩]]
  simp only [List.flatMap_cons, List.flatMap_nil, List.append_nil]
  rw [show subtractInterval 0 5.5 0 1 = [((1 : ℝ), (5.5 : ℝ))] from by
    unfold subtractInterval
    rw [if_neg (by push_neg; constructor <;> norm_num),
      if_neg (by intro hc; linarith [hc.2]),
      if_pos ⟨le_refl 0, by norm_num⟩]]
  simp only [List.filter_cons, List.filter_nil]
  rw [if_pos (by rw [decide_eq_true_eq]; refine ⟨by norm_num, by norm_num, by linarith⟩)]
  simp

lemma c8_board_after :
    checkIntersection
      ⟨[⟨⟨0, ⟨0, 0⟩, 50⟩, [⟨⟨0, ⟨0, 0⟩, 50⟩, 0, TWO_PI⟩]⟩],
        [⟨⟨0, ⟨0, 0⟩, 50⟩, 5.5, 1⟩], 1⟩ ⟨⟨40, 0⟩, ⟨60, 0⟩⟩ =
    (⟨[⟨⟨0, ⟨0, 0⟩, 50⟩, [⟨⟨0, ⟨0, 0⟩, 50⟩, 1, 5.5⟩]⟩], [], 1⟩, 1) := by
  unfold checkIntersection
  simp only
  rw [show checkIntersectionGo ⟨⟨40, 0⟩, ⟨60, 0⟩⟩ [⟨⟨0, ⟨0, 0⟩, 50⟩, 5.5, 1⟩]
      [⟨⟨0, ⟨0, 0⟩, 50⟩, [⟨⟨0, ⟨0, 0⟩, 50⟩, 0, TWO_PI⟩]⟩] =
      ([], [⟨⟨0, ⟨0, 0⟩, 50⟩, [⟨⟨0, ⟨0, 0⟩, 50⟩, 1, 5.5⟩]⟩], 1) from by
    unfold checkIntersectionGo
    rw [if_pos c8_hits_cut]
    simp only [List.map_cons, List.map_nil]
    rw [if_pos trivial]
    rw [show removePiece ⟨⟨0, ⟨0, 0⟩, 50⟩, [⟨⟨0, ⟨0, 0⟩, 50⟩, 0, TWO_PI⟩]⟩
        ⟨⟨0, ⟨0, 0⟩, 50⟩, 5.5, 1⟩ = ⟨⟨0, ⟨0, 0⟩, 50⟩, [⟨⟨0, ⟨0, 0⟩, 50⟩, 1, 5.5⟩]⟩ from by
      unfold removePiece
      simp only [List.flatMap_cons, List.flatMap_nil, List.append_nil]
      rw [c8_subtract]]
    rfl]

/-- C8 counterexample: on the board with one circle (center (0,0), radius 50)
whose boundary is the full circle, and live intersection arc `(5.5, 1.0)`, the
cut segment from (40,0) to (60,0) makes `checkLoss` true before
`checkIntersection` (the boundary still covers angle 0) and false after it
(`removePiece` has subtracted the cut arc from `circle.arc`, the very
collection `checkLoss` reads). -/
theorem c8_counterexample_loss_changes :
    checkLoss ⟨[⟨⟨0, ⟨0, 0⟩, 50⟩, [⟨⟨0, ⟨0, 0⟩, 50⟩, 0, TWO_PI⟩]⟩],
        [⟨⟨0, ⟨0, 0⟩, 50⟩, 5.5, 1⟩], 1⟩ ⟨⟨40, 0⟩, ⟨60, 0⟩⟩ ∧
    ¬ checkLoss (checkIntersection
        ⟨[⟨⟨0, ⟨0, 0⟩, 50⟩, [⟨⟨0, ⟨0, 0⟩, 50⟩, 0, TWO_PI⟩]⟩],
          [⟨⟨0, ⟨0, 0⟩, 50⟩, 5.5, 1⟩], 1⟩ ⟨⟨40, 0⟩, ⟨60, 0⟩⟩).1 ⟨⟨40, 0⟩, ⟨60, 0⟩⟩ := by
  constructor
  · unfold checkLoss circleIntersect
    refine ⟨⟨⟨0, ⟨0, 0⟩, 50⟩, [⟨⟨0, ⟨0, 0⟩, 50⟩, 0, TWO_PI⟩]⟩, by simp,
      ⟨⟨0, ⟨0, 0⟩, 50⟩, 0, TWO_PI⟩, by simp, c8_hits_full⟩
  · rw [c8_board_after]
    unfold checkLoss circleIntersect
    rintro ⟨c, hc, a, ha, hline⟩
    simp only [List.mem_singleton] at hc
    subst hc
    simp only [List.mem_singleton] at ha
    subst ha
    exact c8_misses_rest hline

lemma checkIntersectionGo_preserves (line : ILine) :
    ∀ (l : List IArc) (cs : List BoardCircle),
      ((checkIntersectionGo line l cs).2.1).map (fun c => c.geom) =
        cs.map (fun c => c.geom) ∧
      ((checkIntersectionGo line l cs).1).Sublist l := by
  intro l
  induction l with
  | nil =>
    intro cs
    unfold checkIntersectionGo
    exact ⟨rfl, List.Sublist.refl []⟩
  | cons a rest ih =>
    intro cs
    unfold checkIntersectionGo
    by_cases h : lineIntersectsArc line a
    · rw [if_pos h]
      simp only
      refine ⟨?_, List.Sublist.cons a (ih _).2⟩
      rw [(ih _).1]
      rw [List.map_map]
      apply List.map_congr_left
      intro c _
      by_cases hc : c.geom = a.circle
      · simp only [Function.comp_apply, if_pos hc]
        rfl
      · simp only [Function.comp_apply, if_neg hc]
    · rw [if_neg h]
      simp only
      exact ⟨(ih _).1, List.Sublist.cons₂ a (ih _).2⟩

/-- C8 amended: `checkIntersection` does alter state that `checkLoss` reads —
`removePiece` subtracts the hit arc from the owning circle's boundary list
(`circle.arc`), which is exactly what `checkLoss` tests — so `checkLoss` may
answer differently before and after (see the counterexample).  What is
preserved: every circle's identity and geometry (center, radius), the total
cut count, and the live intersection set only loses arcs (it is a sublist of
the previous one). -/
theorem c8_checkIntersection_preserves_geometry (b : Board) (line : ILine) :
    ((checkIntersection b line).1).circles.map (fun c => c.geom) =
      b.circles.map (fun c => c.geom) ∧
    ((checkIntersection b line).1).intersections.Sublist b.intersections ∧
    ((checkIntersection b line).1).totalCuts = b.totalCuts := by
  refine ⟨?_, ?_, ?_⟩
  · exact (checkIntersectionGo_preserves line b.intersections b.circles).1
  · exact (checkIntersectionGo_preserves line b.intersections b.circles).2
  · rfl

/-! ### Sweep-line merger: toolbox -/

lemma tolMerge_pos : (0 : ℝ) < tolMerge := by unfold tolMerge; norm_num

/-- Separation of ordered arcs: the first ends at least a tolerance before the
second starts. -/
def sepR (x y : IArc) : Prop := x.endAngle + tolMerge ≤ y.startAngle

/-- Unfolding equation of the sweep on an empty event list. -/
lemma sweepEvents_nil (c : CircleRef) (prev : ℝ) (active : ℤ) (merged : List IArc) :
    sweepEvents c [] prev active merged = (merged, active) := rfl

/-- Unfolding equation of the sweep on a cons. -/
lemma sweepEvents_cons (c : CircleRef) (p : IEventPoint) (rest : List IEventPoint)
    (prev : ℝ) (active : ℤ) (merged : List IArc) :
    sweepEvents c (p :: rest) prev active merged =
      sweepEvents c rest p.angle (active + if p.isStart then 1 else -1)
        (if 0 < active ∧ prev + tolMerge < p.angle then
          pushOrExtend c merged prev p.angle
         else merged) := rfl

/-- A start event with no emission (the guard fails). -/
lemma sweepEvents_start_skip (c : CircleRef) (θ : ℝ) (rest : List IEventPoint)
    (prev : ℝ) (active : ℤ) (merged : List IArc)
    (hc : ¬(0 < active ∧ prev + tolMerge < θ)) :
    sweepEvents c (⟨θ, true⟩ :: rest) prev active merged =
      sweepEvents c rest θ (active + 1) merged := by
  rw [sweepEvents_cons, if_neg hc]
  rfl

/-- An end event with no emission (the guard fails). -/
lemma sweepEvents_end_skip (c : CircleRef) (θ : ℝ) (rest : List IEventPoint)
    (prev : ℝ) (active : ℤ) (merged : List IArc)
    (hc : ¬(0 < active ∧ prev + tolMerge < θ)) :
    sweepEvents c (⟨θ, false⟩ :: rest) prev active merged =
      sweepEvents c rest θ (active + -1) merged := by
  rw [sweepEvents_cons, if_neg hc]
  rfl

/-- An end event that emits the covered span. -/
lemma sweepEvents_end_emit (c : CircleRef) (θ : ℝ) (rest : List IEventPoint)
    (prev : ℝ) (active : ℤ) (merged : List IArc)
    (hc : 0 < active ∧ prev + tolMerge < θ) :
    sweepEvents c (⟨θ, false⟩ :: rest) prev active merged =
      sweepEvents c rest θ (active + -1) (pushOrExtend c merged prev θ) := by
  rw [sweepEvents_cons, if_pos hc]
  rfl

/-- When every already-merged arc ends at least a tolerance before `prev`, the
emit step appends a fresh arc. -/
lemma pushOrExtend_push {merged : List IArc} {prev : ℝ} (c : CircleRef) (angle : ℝ)
    (h : ∀ last, merged.getLast? = some last → last.endAngle + tolMerge ≤ prev) :
    pushOrExtend c merged prev angle = merged ++ [⟨c, prev, angle⟩] := by
  unfold pushOrExtend
  cases hm : merged.getLast? with
  | none => rfl
  | some last =>
    dsimp only
    rw [if_neg]
    intro habs
    rw [abs_sub_lt_iff] at habs
    have h1 := h last hm
    linarith [habs.2]

/-- `mergeSort` by angle sends any list to its unique strictly-sorted
rearrangement. -/
lemma mergeSort_eq_of_sorted_lt (l m : List IEventPoint)
    (hperm : l.Perm m)
    (hm : m.Pairwise fun x y => x.angle < y.angle) :
    l.mergeSort (fun x y => decide (x.angle ≤ y.angle)) = m := by
  have htrans : ∀ a b c : IEventPoint,
      (fun x y : IEventPoint => decide (x.angle ≤ y.angle)) a b = true →
      (fun x y : IEventPoint => decide (x.angle ≤ y.angle)) b c = true →
      (fun x y : IEventPoint => decide (x.angle ≤ y.angle)) a c = true := by
    intro a b c hab hbc
    simp only [decide_eq_true_eq] at hab hbc ⊢
    exact le_trans hab hbc
  have htotal : ∀ a b : IEventPoint,
      ((fun x y : IEventPoint => decide (x.angle ≤ y.angle)) a b ||
       (fun x y : IEventPoint => decide (x.angle ≤ y.angle)) b a) = true := by
    intro a b
    simp only [Bool.or_eq_true, decide_eq_true_eq]
    exact le_total a.angle b.angle
  have hsorted := List.sorted_mergeSort htrans htotal l
  have hperm2 : (l.mergeSort fun x y => decide (x.angle ≤ y.angle)).Perm m :=
    (List.mergeSort_perm l _).trans hperm
  have hne : (l.mergeSort fun x y => decide (x.angle ≤ y.angle)).Pairwise
      fun x y : IEventPoint => x.angle ≠ y.angle :=
    (List.Perm.pairwise_iff (fun h => Ne.symm h) hperm2).mpr
      (hm.imp fun h => ne_of_lt h)
  have hle : (l.mergeSort fun x y => decide (x.angle ≤ y.angle)).Pairwise
      fun x y : IEventPoint => x.angle ≤ y.angle := by
    refine hsorted.imp ?_
    intro a b h
    simpa using h
  have hlt : (l.mergeSort fun x y => decide (x.angle ≤ y.angle)).Pairwise
      fun x y : IEventPoint => x.angle < y.angle :=
    (hle.and hne).imp fun h => lt_of_le_of_ne h.1 h.2
  haveI : IsAntisymm IEventPoint fun x y : IEventPoint => x.angle < y.angle :=
    ⟨fun a b h1 h2 => absurd (h1.trans h2) (lt_irrefl _)⟩
  exact List.eq_of_perm_of_sorted hperm2 hlt hm

/-- Within range, the merger's event list is the raw flat-map of start/end
events (normalization is the identity there). -/
lemma eventsOf_of_bounds (l : List IArc)
    (h : ∀ a ∈ l, (0 ≤ a.startAngle ∧ a.startAngle < TWO_PI) ∧
      (0 ≤ a.endAngle ∧ a.endAngle < TWO_PI)) :
    eventsOf l = l.flatMap fun a =>
      [⟨a.startAngle, true⟩, ⟨a.endAngle, false⟩] := by
  induction l with
  | nil => rfl
  | cons a rest ih =>
    have ha := h a (List.mem_cons_self a rest)
    have hrest := ih fun b hb => h b (List.mem_cons_of_mem a hb)
    unfold eventsOf at hrest ⊢
    simp only [List.flatMap_cons]
    rw [jsNormalize_of_Ico ha.1.1 ha.1.2, jsNormalize_of_Ico ha.2.1 ha.2.2, hrest]

/-- No arc in range with start ≤ end crosses the seam, so the wrap counter
vanishes. -/
lemma wrapCount_eq_zero (l : List IArc)
    (h : ∀ a ∈ l, (0 ≤ a.startAngle ∧ a.startAngle < TWO_PI) ∧
      (0 ≤ a.endAngle ∧ a.endAngle < TWO_PI) ∧ a.startAngle ≤ a.endAngle) :
    wrapCount l = 0 := by
  unfold wrapCount
  rw [List.length_eq_zero, List.filter_eq_nil_iff]
  intro a ha
  have h1 := h a ha
  rw [jsNormalize_of_Ico h1.1.1 h1.1.2, jsNormalize_of_Ico h1.2.1.1 h1.2.1.2]
  simp only [decide_eq_true_eq]
  exact not_lt.mpr h1.2.2

/-- Every event of the raw flat-map carries the start or end angle of some
arc of the list. -/
lemma events_angle_mem {l : List IArc} {x : IEventPoint}
    (hx : x ∈ l.flatMap fun a =>
      ([⟨a.startAngle, true⟩, ⟨a.endAngle, false⟩] : List IEventPoint)) :
    ∃ b ∈ l, x.angle = b.startAngle ∨ x.angle = b.endAngle := by
  rw [List.mem_flatMap] at hx
  obtain ⟨b, hb, hxb⟩ := hx
  refine ⟨b, hb, ?_⟩
  simp only [List.mem_cons, List.not_mem_nil, or_false] at hxb
  rcases hxb with rfl | rfl
  · exact Or.inl rfl
  · exact Or.inr rfl

/-- The events of a separated, sorted arc list are strictly increasing. -/
lemma events_pairwise_lt (l : List IArc)
    (hlen : ∀ a ∈ l, a.startAngle + tolMerge < a.endAngle)
    (hsep : l.Pairwise sepR) :
    (l.flatMap fun a =>
        ([⟨a.startAngle, true⟩, ⟨a.endAngle, false⟩] : List IEventPoint)).Pairwise
      fun x y => x.angle < y.angle := by
  induction l with
  | nil => exact List.Pairwise.nil
  | cons a rest ih =>
    rw [List.pairwise_cons] at hsep
    have hlena := hlen a (List.mem_cons_self a rest)
    have hae : ∀ y ∈ rest.flatMap fun b =>
        ([⟨b.startAngle, true⟩, ⟨b.endAngle, false⟩] : List IEventPoint),
        a.endAngle < y.angle := by
      intro y hy
      obtain ⟨b, hb, hyb⟩ := events_angle_mem hy
      have hsab := hsep.1 b hb
      have hlenb := hlen b (List.mem_cons_of_mem a hb)
      unfold sepR at hsab
      rcases hyb with h | h <;> rw [h] <;> linarith [tolMerge_pos]
    simp only [List.flatMap_cons, List.cons_append, List.singleton_append]
    refine List.Pairwise.cons ?_ (List.Pairwise.cons ?_ ?_)
    · intro y hy
      rcases List.mem_cons.mp hy with rfl | hy2
      · show a.startAngle < a.endAngle
        linarith [tolMerge_pos]
      · have := hae y hy2
        show a.startAngle < y.angle
        linarith [tolMerge_pos]
    · exact hae
    · exact ih (fun b hb => hlen b (List.mem_cons_of_mem a hb)) hsep.2

/-- The sweep over the events of a sorted, separated arc list emits exactly
those arcs, in order, and returns the coverage counter to zero. -/
lemma sweepEvents_sep (c : CircleRef) :
    ∀ (l merged : List IArc) (prev : ℝ),
    (∀ a ∈ l, a.startAngle + tolMerge < a.endAngle) →
    (∀ a ∈ l, a.circle = c) →
    l.Chain' sepR →
    (∀ last, merged.getLast? = some last → ∀ first, l.head? = some first →
      sepR last first) →
    sweepEvents c (l.flatMap fun a =>
      ([⟨a.startAngle, true⟩, ⟨a.endAngle, false⟩] : List IEventPoint)) prev 0 merged
      = (merged ++ l, 0) := by
  intro l
  induction l with
  | nil =>
    intro merged prev _ _ _ _
    simp [sweepEvents_nil]
  | cons a rest ih =>
    intro merged prev hlen hcirc hchain hlast
    have hlena := hlen a (List.mem_cons_self a rest)
    simp only [List.flatMap_cons, List.cons_append, List.singleton_append]
    rw [sweepEvents_start_skip _ _ _ _ _ _ (fun hx => lt_irrefl 0 hx.1)]
    rw [sweepEvents_end_emit _ _ _ _ _ _ ⟨by decide, hlena⟩]
    have hz : ((0 : ℤ) + 1 + -1) = 0 := by decide
    rw [hz]
    rw [pushOrExtend_push c a.endAngle (fun last hl => hlast last hl a rfl)]
    have hca : (⟨c, a.startAngle, a.endAngle⟩ : IArc) = a := by
      have hac := hcirc a (List.mem_cons_self a rest)
      cases a
      simp only at hac ⊢
      rw [hac]
    rw [hca, List.nil_append]
    rw [ih (merged ++ [a]) a.endAngle
      (fun b hb => hlen b (List.mem_cons_of_mem a hb))
      (fun b hb => hcirc b (List.mem_cons_of_mem a hb))
      hchain.tail
      ?_]
    · rw [List.append_assoc, List.singleton_append]
    · intro last hl first hf
      rw [List.getLast?_concat] at hl
      obtain rfl : a = last := Option.some.inj hl
      exact (List.chain'_cons'.mp hchain).1 first hf

/-- Any pairwise-separated arc list of positive-tolerance lengths has a
rearrangement that is separated in list order. -/
lemma sortedArcs_spec (arcs : List IArc)
    (hlen : ∀ a ∈ arcs, a.startAngle + tolMerge < a.endAngle)
    (hsep : arcs.Pairwise fun x y => sepR x y ∨ sepR y x) :
    ∃ m : List IArc, m.Perm arcs ∧ m.Pairwise sepR := by
  refine ⟨arcs.mergeSort fun x y => decide (x.startAngle ≤ y.startAngle),
    List.mergeSort_perm arcs _, ?_⟩
  have htrans : ∀ a b c : IArc,
      (fun x y : IArc => decide (x.startAngle ≤ y.startAngle)) a b = true →
      (fun x y : IArc => decide (x.startAngle ≤ y.startAngle)) b c = true →
      (fun x y : IArc => decide (x.startAngle ≤ y.startAngle)) a c = true := by
    intro a b c hab hbc
    simp only [decide_eq_true_eq] at hab hbc ⊢
    exact le_trans hab hbc
  have htotal : ∀ a b : IArc,
      ((fun x y : IArc => decide (x.startAngle ≤ y.startAngle)) a b ||
       (fun x y : IArc => decide (x.startAngle ≤ y.startAngle)) b a) = true := by
    intro a b
    simp only [Bool.or_eq_true, decide_eq_true_eq]
    exact le_total a.startAngle b.startAngle
  have hperm := List.mergeSort_perm arcs
    fun x y : IArc => decide (x.startAngle ≤ y.startAngle)
  have hle : (arcs.mergeSort fun x y => decide (x.startAngle ≤ y.startAngle)).Pairwise
      fun x y : IArc => x.startAngle ≤ y.startAngle := by
    refine (List.sorted_mergeSort htrans htotal arcs).imp ?_
    intro a b h
    simpa using h
  have hsep2 : (arcs.mergeSort fun x y => decide (x.startAngle ≤ y.startAngle)).Pairwise
      fun x y : IArc => sepR x y ∨ sepR y x :=
    (List.Perm.pairwise_iff (fun h => h.symm) hperm).mpr hsep
  refine (hle.and hsep2).imp_of_mem ?_
  intro a b ha hb h
  rcases h.2 with h2 | h2
  · exact h2
  · exfalso
    have hlb := hlen b (hperm.mem_iff.mp hb)
    unfold sepR at h2
    linarith [h.1, tolMerge_pos]

/-- When the last merged arc does not reach 2π within tolerance, or the first
does not start within tolerance of 0, the final seam check is the identity. -/
lemma finalSeamMerge_id (l : List IArc)
    (h : ∀ first, l.head? = some first → ∀ last, l.getLast? = some last →
      ¬(|last.endAngle - TWO_PI| < tolMerge ∧ first.startAngle < tolMerge)) :
    finalSeamMerge l = l := by
  rcases l with _ | ⟨a, _ | ⟨b, rest⟩⟩
  · rfl
  · rfl
  · unfold finalSeamMerge
    dsimp only
    rw [if_neg]
    apply h a rfl
    rw [List.getLast?_cons_cons, List.getLast?_eq_getLast]

/-- C7 (amended): on any family of arcs of one circle that is pairwise
separated by more than the tolerance, each longer than the tolerance, with
in-range bounds, and not touching the 0/2π seam from both sides at once, the
merger returns the same arcs (as a multiset: it re-sorts them by start
angle). -/
theorem c7_merge_idempotent (c : CircleRef) (arcs : List IArc)
    (hcirc : ∀ a ∈ arcs, a.circle = c)
    (hwf : ∀ a ∈ arcs, 0 ≤ a.startAngle ∧ a.startAngle + tolMerge < a.endAngle ∧
      a.endAngle < TWO_PI)
    (hsep : arcs.Pairwise fun x y => sepR x y ∨ sepR y x)
    (hseam : ∀ a ∈ arcs, ∀ b ∈ arcs,
      tolMerge ≤ a.startAngle ∨ b.endAngle ≤ TWO_PI - tolMerge) :
    (joinOverlappingArcs arcs).Perm arcs := by
  by_cases hlen1 : arcs.length ≤ 1
  · unfold joinOverlappingArcs
    rw [if_pos hlen1]
  · obtain ⟨a0, t, rfl⟩ := @List.exists_cons_of_ne_nil _ arcs
      (fun hx => hlen1 (by rw [hx]; decide))
    have hbounds : ∀ a ∈ a0 :: t, (0 ≤ a.startAngle ∧ a.startAngle < TWO_PI) ∧
        (0 ≤ a.endAngle ∧ a.endAngle < TWO_PI) := by
      intro a ha
      obtain ⟨h1, h2, h3⟩ := hwf a ha
      have := tolMerge_pos
      exact ⟨⟨h1, by linarith⟩, ⟨by linarith, h3⟩⟩
    obtain ⟨m, hmperm, hmsep⟩ :=
      sortedArcs_spec (a0 :: t) (fun a ha => (hwf a ha).2.1) hsep
    have hmlen : ∀ a ∈ m, a.startAngle + tolMerge < a.endAngle :=
      fun a ha => (hwf a (hmperm.mem_iff.mp ha)).2.1
    have hmcirc : ∀ a ∈ m, a.circle = a0.circle := fun a ha => by
      rw [hcirc a (hmperm.mem_iff.mp ha), hcirc a0 (List.mem_cons_self a0 t)]
    have hevents : (eventsOf (a0 :: t)).mergeSort (fun x y => decide (x.angle ≤ y.angle)) =
        m.flatMap fun a => [⟨a.startAngle, true⟩, ⟨a.endAngle, false⟩] := by
      rw [eventsOf_of_bounds _ hbounds]
      apply mergeSort_eq_of_sorted_lt
      · exact List.Perm.flatMap_right _ hmperm.symm
      · exact events_pairwise_lt m hmlen hmsep
    have hwrap : wrapCount (a0 :: t) = 0 := by
      apply wrapCount_eq_zero
      intro a ha
      refine ⟨(hbounds a ha).1, (hbounds a ha).2, ?_⟩
      have := (hwf a ha).2.1
      linarith [tolMerge_pos]
    have hsweep : sweepEvents a0.circle
        (m.flatMap fun a => [⟨a.startAngle, true⟩, ⟨a.endAngle, false⟩]) 0 0 []
        = (m, 0) := by
      rw [sweepEvents_sep a0.circle m [] 0 hmlen hmcirc hmsep.chain'
        (fun last hl => by simp at hl)]
      rw [List.nil_append]
    have hmne : m ≠ [] := by
      intro hx
      rw [hx] at hmperm
      rw [← hmperm.length_eq] at hlen1
      exact hlen1 (by decide)
    unfold joinOverlappingArcs
    rw [if_neg hlen1]
    dsimp only
    rw [hevents, hwrap]
    rw [show ((0 : ℕ) : ℤ) = 0 from rfl]
    rw [hsweep]
    dsimp only
    rw [if_neg (fun hx => lt_irrefl 0 hx.1)]
    rw [finalSeamMerge_id]
    · exact hmperm
    · intro first hf last hl
      have hfm : first ∈ a0 :: t := hmperm.mem_iff.mp (List.mem_of_mem_head? hf)
      have hlm : last ∈ a0 :: t := hmperm.mem_iff.mp (List.mem_of_mem_getLast? hl)
      intro habs
      rcases hseam first hfm last hlm with h1 | h1
      · exact absurd habs.2 (not_lt.mpr h1)
      · rw [abs_sub_lt_iff] at habs
        linarith [habs.1.2]

/-- Concrete behaviour of the merger on two ordered arcs the first of which is
no longer than the tolerance: the sweep's emission guard skips it and it is
silently dropped. -/
lemma joinOverlappingArcs_drops_tiny (c : CircleRef) (s1 e1 s2 e2 : ℝ)
    (h0 : 0 ≤ s1) (h1 : s1 < e1) (h2 : e1 ≤ s1 + tolMerge) (h3 : e1 < s2)
    (h4 : s2 + tolMerge < e2) (h5 : e2 < TWO_PI) :
    joinOverlappingArcs [⟨c, s1, e1⟩, ⟨c, s2, e2⟩] = [⟨c, s2, e2⟩] := by
  have htol := tolMerge_pos
  have hevents : eventsOf [(⟨c, s1, e1⟩ : IArc), ⟨c, s2, e2⟩] =
      [⟨s1, true⟩, ⟨e1, false⟩, ⟨s2, true⟩, ⟨e2, false⟩] := by
    rw [eventsOf_of_bounds]
    · rfl
    · intro a ha
      simp only [List.mem_cons, List.not_mem_nil, or_false] at ha
      rcases ha with rfl | rfl
      · exact ⟨⟨h0, by linarith⟩, ⟨by linarith, by linarith⟩⟩
      · exact ⟨⟨by linarith, by linarith⟩, ⟨by linarith, h5⟩⟩
  have hsorted : ([⟨s1, true⟩, ⟨e1, false⟩, ⟨s2, true⟩, ⟨e2, false⟩] :
      List IEventPoint).Pairwise fun x y => x.angle < y.angle := by
    refine List.Pairwise.cons ?_ (List.Pairwise.cons ?_ (List.Pairwise.cons ?_
      (List.Pairwise.cons (fun y hy => absurd hy (List.not_mem_nil y))
        List.Pairwise.nil))) <;>
      · intro y hy
        simp only [List.mem_cons, List.not_mem_nil, or_false] at hy
        rcases hy with rfl | rfl | rfl <;> (show _ < _; linarith)
  have hmerge : (eventsOf [(⟨c, s1, e1⟩ : IArc), ⟨c, s2, e2⟩]).mergeSort
        (fun x y => decide (x.angle ≤ y.angle)) =
      [⟨s1, true⟩, ⟨e1, false⟩, ⟨s2, true⟩, ⟨e2, false⟩] := by
    rw [hevents]
    exact mergeSort_eq_of_sorted_lt _ _ (List.Perm.refl _) hsorted
  have hwrap : wrapCount [(⟨c, s1, e1⟩ : IArc), ⟨c, s2, e2⟩] = 0 := by
    apply wrapCount_eq_zero
    intro a ha
    simp only [List.mem_cons, List.not_mem_nil, or_false] at ha
    rcases ha with rfl | rfl
    · exact ⟨⟨h0, by linarith⟩, ⟨by linarith, by linarith⟩, le_of_lt h1⟩
    · exact ⟨⟨by linarith, by linarith⟩, ⟨by linarith, h5⟩, by linarith⟩
  have hsweep : sweepEvents c
      ([⟨s1, true⟩, ⟨e1, false⟩, ⟨s2, true⟩, ⟨e2, false⟩] : List IEventPoint)
      0 0 [] = ([⟨c, s2, e2⟩], 0) := by
    rw [sweepEvents_start_skip _ _ _ _ _ _ (fun hx => lt_irrefl 0 hx.1)]
    rw [sweepEvents_end_skip _ _ _ _ _ _ (fun hx => absurd hx.2 (not_lt.mpr h2))]
    rw [sweepEvents_start_skip _ _ _ _ _ _
      (fun hx => absurd hx.1 (by decide : ¬ (0 : ℤ) < 0 + 1 + -1))]
    rw [sweepEvents_end_emit _ _ _ _ _ _
      ⟨by decide, h4⟩]
    rw [pushOrExtend_push c e2 (fun last hl => by simp at hl)]
    rw [sweepEvents_nil, List.nil_append]
    rw [show ((0 : ℤ) + 1 + -1 + 1 + -1) = 0 from by decide]
  have hlen2 : ¬ ([(⟨c, s1, e1⟩ : IArc), ⟨c, s2, e2⟩].length ≤ 1) := by simp
  unfold joinOverlappingArcs
  rw [if_neg hlen2]
  dsimp only
  rw [hmerge, hwrap, show (((0 : ℕ) : ℤ)) = 0 from rfl, hsweep]
  dsimp only
  rw [if_neg (fun hx => lt_irrefl 0 hx.1)]
  rfl

/-- C7 counterexample: the arc set {[1, 1+1e-10], [2, 3]} on one circle is
pairwise disjoint, non-touching (gap ≈ 1 ≫ 1e-9) and maximal (no two of its
arcs can merge), yet the merger drops the first arc — whose length 1e-10 is
below the emission tolerance 1e-9 — and returns only the second, so the
output is not the input set. -/
theorem c7_counterexample_tolerance_arc :
    joinOverlappingArcs
        [⟨⟨0, ⟨0, 0⟩, 50⟩, 1, 1 + 1e-10⟩, ⟨⟨0, ⟨0, 0⟩, 50⟩, 2, 3⟩] =
      [⟨⟨0, ⟨0, 0⟩, 50⟩, 2, 3⟩] ∧
    ¬ (joinOverlappingArcs
        [⟨⟨0, ⟨0, 0⟩, 50⟩, 1, 1 + 1e-10⟩, ⟨⟨0, ⟨0, 0⟩, 50⟩, 2, 3⟩]).Perm
      [⟨⟨0, ⟨0, 0⟩, 50⟩, 1, 1 + 1e-10⟩, ⟨⟨0, ⟨0, 0⟩, 50⟩, 2, 3⟩] := by
  have he : joinOverlappingArcs
      [⟨⟨0, ⟨0, 0⟩, 50⟩, 1, 1 + 1e-10⟩, ⟨⟨0, ⟨0, 0⟩, 50⟩, 2, 3⟩] =
      [⟨⟨0, ⟨0, 0⟩, 50⟩, 2, 3⟩] := by
    apply joinOverlappingArcs_drops_tiny
    · norm_num
    · norm_num
    · unfold tolMerge; norm_num
    · norm_num
    · unfold tolMerge; norm_num
    · linarith [twoPi_gt]
  refine ⟨he, ?_⟩
  rw [he]
  intro hperm
  have h2 := hperm.length_eq
  simp at h2

/-- C7 witness: a concrete separated pair of arcs is returned unchanged. -/
theorem c7_merge_idempotent_witness :
    (joinOverlappingArcs
        [⟨⟨0, ⟨0, 0⟩, 50⟩, 1, 2⟩, ⟨⟨0, ⟨0, 0⟩, 50⟩, 3, 4⟩]).Perm
      [⟨⟨0, ⟨0, 0⟩, 50⟩, 1, 2⟩, ⟨⟨0, ⟨0, 0⟩, 50⟩, 3, 4⟩] := by
  apply c7_merge_idempotent ⟨0, ⟨0, 0⟩, 50⟩
  · intro a ha
    simp only [List.mem_cons, List.not_mem_nil, or_false] at ha
    rcases ha with rfl | rfl <;> rfl
  · intro a ha
    simp only [List.mem_cons, List.not_mem_nil, or_false] at ha
    rcases ha with rfl | rfl <;>
      exact ⟨by norm_num, by unfold tolMerge; norm_num,
        by dsimp only; linarith [twoPi_gt]⟩
  · refine List.Pairwise.cons ?_
      (List.Pairwise.cons (fun y hy => absurd hy (List.not_mem_nil y))
        List.Pairwise.nil)
    intro y hy
    simp only [List.mem_cons, List.not_mem_nil, or_false] at hy
    subst hy
    left
    unfold sepR tolMerge
    norm_num
  · intro a ha b hb
    left
    simp only [List.mem_cons, List.not_mem_nil, or_false] at ha
    rcases ha with rfl | rfl <;> (unfold tolMerge; norm_num)

/-- Spec-side definition (spec §4.2): the set of normalized angles covered by
an arc — for `start ≤ end` the band `[start, end]`, for a wrapping arc the
bands `[start, 2π) ∪ [0, end]`; only angles in `[0, 2π)` are considered. -/
def inArcRegion (a : IArc) (θ : ℝ) : Prop :=
  0 ≤ θ ∧ θ < TWO_PI ∧
  ((a.startAngle ≤ a.endAngle ∧ a.startAngle ≤ θ ∧ θ ≤ a.endAngle) ∨
   (a.endAngle < a.startAngle ∧ (a.startAngle ≤ θ ∨ θ ≤ a.endAngle)))

/-- Spec-side definition (spec §4.2): two arcs neither overlap nor touch
within the tolerance, including across the 0/2π seam — every pair of covered
angles is at circular distance at least the tolerance. -/
def circSeparated (a b : IArc) : Prop :=
  ∀ θ θ', inArcRegion a θ → inArcRegion b θ' →
    tolMerge ≤ |θ - θ'| ∧ tolMerge ≤ TWO_PI - |θ - θ'|

/-- Invariant of the sweep loop: the merged arcs are separated in order, each
longer than the tolerance with nonnegative start, and the last ends by
`prev`. -/
def SweepInv (merged : List IArc) (prev : ℝ) : Prop :=
  merged.Chain' sepR ∧
  (∀ a ∈ merged, 0 ≤ a.startAngle ∧ a.startAngle + tolMerge < a.endAngle) ∧
  (∀ last, merged.getLast? = some last → last.endAngle ≤ prev)

lemma sweepInv_nil (prev : ℝ) : SweepInv [] prev := by
  refine ⟨List.chain'_nil, fun a ha => absurd ha (List.not_mem_nil a), ?_⟩
  intro last hl
  simp at hl

lemma sweepInv_mono {merged : List IArc} {prev prev' : ℝ}
    (hInv : SweepInv merged prev) (h : prev ≤ prev') : SweepInv merged prev' :=
  ⟨hInv.1, hInv.2.1, fun last hl => le_trans (hInv.2.2 last hl) h⟩

/-- The emit step preserves the sweep invariant whenever the emitted span is
longer than the tolerance and starts at a nonnegative angle. -/
lemma pushOrExtend_inv (c : CircleRef) {merged : List IArc} {prev angle : ℝ}
    (hInv : SweepInv merged prev) (hp : 0 ≤ prev) (hlt : prev + tolMerge < angle) :
    SweepInv (pushOrExtend c merged prev angle) angle := by
  obtain ⟨hchain, hlen, hend⟩ := hInv
  unfold pushOrExtend
  cases hm : merged.getLast? with
  | none =>
    have hnil : merged = [] := List.getLast?_eq_none_iff.mp hm
    subst hnil
    refine ⟨?_, ?_, ?_⟩
    · exact List.chain'_singleton _
    · intro a ha
      simp only [List.nil_append, List.mem_cons, List.not_mem_nil, or_false] at ha
      subst ha
      exact ⟨hp, hlt⟩
    · intro last hl
      rw [List.nil_append, List.getLast?_singleton] at hl
      obtain rfl : (⟨c, prev, angle⟩ : IArc) = last := Option.some.inj hl
      exact le_refl angle
  | some last =>
    have hne : merged ≠ [] := by
      intro hx
      rw [hx] at hm
      simp at hm
    have hlast_eq : merged.getLast hne = last := by
      rw [List.getLast?_eq_getLast merged hne] at hm
      exact Option.some.inj hm
    have hdecomp : merged.dropLast ++ [last] = merged := by
      rw [← hlast_eq]
      exact List.dropLast_append_getLast hne
    have hlast_mem : last ∈ merged := List.mem_of_mem_getLast? hm
    have hlast_len := hlen last hlast_mem
    have hlast_end := hend last hm
    dsimp only
    split
    · -- extend the previous arc
      rename_i hclose
      have hchain2 : (merged.dropLast ++ [last]).Chain' sepR := by
        rw [hdecomp]; exact hchain
      rw [List.chain'_append] at hchain2
      refine ⟨?_, ?_, ?_⟩
      · rw [List.chain'_append]
        refine ⟨hchain2.1, List.chain'_singleton _, ?_⟩
        intro x hx y hy
        rw [List.head?_cons] at hy
        obtain rfl : (⟨last.circle, last.startAngle, angle⟩ : IArc) = y :=
          Option.some.inj hy
        exact hchain2.2.2 x hx last rfl
      · intro a ha
        rcases List.mem_append.mp ha with ha2 | ha2
        · exact hlen a (List.mem_of_mem_dropLast ha2)
        · simp only [List.mem_cons, List.not_mem_nil, or_false] at ha2
          subst ha2
          exact ⟨hlast_len.1, by dsimp only; linarith [hlast_len.2, tolMerge_pos]⟩
      · intro l2 hl2
        rw [List.getLast?_concat] at hl2
        obtain rfl : (⟨last.circle, last.startAngle, angle⟩ : IArc) = l2 :=
          Option.some.inj hl2
        exact le_refl angle
    · -- push a fresh arc
      rename_i hfar
      have hgap : last.endAngle + tolMerge ≤ prev := by
        rw [abs_sub_lt_iff, not_and_or, not_lt, not_lt] at hfar
        rcases hfar with h | h
        · linarith
        · linarith
      refine ⟨?_, ?_, ?_⟩
      · rw [List.chain'_append]
        refine ⟨hchain, List.chain'_singleton _, ?_⟩
        intro x hx y hy
        rw [List.head?_cons] at hy
        obtain rfl : (⟨c, prev, angle⟩ : IArc) = y := Option.some.inj hy
        have : x = last := by
          rw [hm] at hx
          exact (Option.some.inj hx).symm
        subst this
        exact hgap
      · intro a ha
        rcases List.mem_append.mp ha with ha2 | ha2
        · exact hlen a ha2
        · simp only [List.mem_cons, List.not_mem_nil, or_false] at ha2
          subst ha2
          exact ⟨hp, hlt⟩
      · intro l2 hl2
        rw [List.getLast?_concat] at hl2
        obtain rfl : (⟨c, prev, angle⟩ : IArc) = l2 := Option.some.inj hl2
        exact le_refl angle

/-- The angle at which the sweep loop ends: the last event's angle, or the
starting value if there is no event. -/
noncomputable def finalAngleOf (events : List IEventPoint) (prev : ℝ) : ℝ :=
  match events.getLast? with
  | some p => p.angle
  | none => prev

lemma finalAngleOf_cons (p : IEventPoint) (rest : List IEventPoint) (prev : ℝ) :
    finalAngleOf (p :: rest) prev = finalAngleOf rest p.angle := by
  cases rest with
  | nil => rfl
  | cons q r =>
    unfold finalAngleOf
    rw [List.getLast?_cons_cons]
    cases hgl : (q :: r).getLast? with
    | none => exact absurd (List.getLast?_eq_none_iff.mp hgl) (List.cons_ne_nil q r)
    | some s => rfl

lemma finalAngleOf_lt (events : List IEventPoint) (prev : ℝ)
    (h : ∀ ev ∈ events, ev.angle < TWO_PI) (hp : prev < TWO_PI) :
    finalAngleOf events prev < TWO_PI := by
  unfold finalAngleOf
  cases he : events.getLast? with
  | none => exact hp
  | some p => exact h p (List.mem_of_mem_getLast? he)

/-- The sweep loop preserves the invariant along any sorted event list with
nondecreasing, nonnegative angles. -/
lemma sweepEvents_inv (c : CircleRef) :
    ∀ (events : List IEventPoint) (prev : ℝ) (active : ℤ) (merged : List IArc),
    events.Pairwise (fun x y => x.angle ≤ y.angle) →
    (∀ ev ∈ events, prev ≤ ev.angle) →
    0 ≤ prev →
    SweepInv merged prev →
    SweepInv (sweepEvents c events prev active merged).1 (finalAngleOf events prev) ∧
    0 ≤ finalAngleOf events prev := by
  intro events
  induction events with
  | nil =>
    intro prev active merged _ _ hp hInv
    rw [sweepEvents_nil]
    exact ⟨hInv, hp⟩
  | cons p rest ih =>
    intro prev active merged hsorted hge hp hInv
    rw [sweepEvents_cons, finalAngleOf_cons]
    have hpp : prev ≤ p.angle := hge p (List.mem_cons_self p rest)
    have hp2 : 0 ≤ p.angle := le_trans hp hpp
    have hrest_ge := (List.pairwise_cons.mp hsorted).1
    have hsorted2 := (List.pairwise_cons.mp hsorted).2
    by_cases hc : 0 < active ∧ prev + tolMerge < p.angle
    · rw [if_pos hc]
      exact ih p.angle _ _ hsorted2 hrest_ge hp2 (pushOrExtend_inv c hInv hp hc.2)
    · rw [if_neg hc]
      exact ih p.angle _ _ hsorted2 hrest_ge hp2 (sweepInv_mono hInv hpp)

/-- An order-separated chain of tolerance-length arcs is pairwise separated. -/
lemma chain_sep_pairwise : ∀ (l : List IArc),
    (∀ a ∈ l, a.startAngle + tolMerge < a.endAngle) →
    l.Chain' sepR → l.Pairwise sepR := by
  intro l
  induction l with
  | nil => intro _ _; exact List.Pairwise.nil
  | cons a t ih =>
    intro hlen hchain
    have hct := List.chain'_cons'.mp hchain
    have hpt := ih (fun b hb => hlen b (List.mem_cons_of_mem a hb)) hct.2
    refine List.Pairwise.cons ?_ hpt
    intro b hb
    cases t with
    | nil => exact absurd hb (List.not_mem_nil b)
    | cons h t' =>
      have hah : sepR a h := hct.1 h rfl
      rcases List.mem_cons.mp hb with rfl | hb'
      · exact hah
      · have hhb : sepR h b := (List.pairwise_cons.mp hpt).1 b hb'
        have hlh := hlen h (List.mem_cons_of_mem a (List.mem_cons_self h t'))
        unfold sepR at hah hhb ⊢
        linarith [tolMerge_pos]

/-- In a pairwise-separated list the head starts no later than anyone. -/
lemma pairwise_sep_head_bound (l : List IArc) (hpair : l.Pairwise sepR)
    (hlen : ∀ x ∈ l, x.startAngle + tolMerge < x.endAngle) :
    ∀ first, l.head? = some first → ∀ x ∈ l, first.startAngle ≤ x.startAngle := by
  intro first hf x hx
  cases l with
  | nil => simp at hf
  | cons h t =>
    rw [List.head?_cons] at hf
    obtain rfl : h = first := Option.some.inj hf
    rcases List.mem_cons.mp hx with rfl | hx2
    · exact le_refl _
    · have h1 := (List.pairwise_cons.mp hpair).1 x hx2
      have h2 := hlen h (List.mem_cons_self _ _)
      unfold sepR at h1
      linarith [tolMerge_pos]

/-- In a pairwise-separated list everyone ends no later than the last. -/
lemma pairwise_sep_last_bound (l : List IArc) (hpair : l.Pairwise sepR)
    (hlen : ∀ x ∈ l, x.startAngle + tolMerge < x.endAngle) :
    ∀ last, l.getLast? = some last → ∀ x ∈ l, x.endAngle ≤ last.endAngle := by
  intro last hl x hx
  have hne : l ≠ [] := by
    intro h
    rw [h] at hl
    simp at hl
  have hdecomp : l.dropLast ++ [l.getLast hne] = l := List.dropLast_append_getLast hne
  have hlast_eq : l.getLast hne = last := by
    rw [List.getLast?_eq_getLast l hne] at hl
    exact Option.some.inj hl
  have hlast_mem : last ∈ l := List.mem_of_mem_getLast? hl
  rw [← hdecomp] at hx hpair
  rcases List.mem_append.mp hx with hx2 | hx2
  · have h1 := (List.pairwise_append.mp hpair).2.2 x hx2 (l.getLast hne)
      (List.mem_cons_self _ _)
    have h2 := hlen last hlast_mem
    rw [hlast_eq] at h1
    unfold sepR at h1
    linarith [tolMerge_pos]
  · simp only [List.mem_cons, List.not_mem_nil, or_false] at hx2
    rw [hx2, hlast_eq]

/-- Two plain (non-wrapping) bands in `[0, 2π]` separated by the tolerance in
order, with a circular margin on the outside, are circularly separated. -/
lemma circSeparated_of_bands {x y : IArc}
    (hx : x.startAngle < x.endAngle) (hy : y.startAngle < y.endAngle)
    (hxy : x.endAngle + tolMerge ≤ y.startAngle)
    (hcirc : tolMerge ≤ (TWO_PI - y.endAngle) + x.startAngle) :
    circSeparated x y := by
  intro θ θ' hθ hθ'
  obtain ⟨hθ0, hθ2π, hθb⟩ := hθ
  obtain ⟨hθ'0, hθ'2π, hθ'b⟩ := hθ'
  have hxb : x.startAngle ≤ θ ∧ θ ≤ x.endAngle := by
    rcases hθb with h | h
    · exact ⟨h.2.1, h.2.2⟩
    · exact absurd h.1 (not_lt.mpr (le_of_lt hx))
  have hyb : y.startAngle ≤ θ' ∧ θ' ≤ y.endAngle := by
    rcases hθ'b with h | h
    · exact ⟨h.2.1, h.2.2⟩
    · exact absurd h.1 (not_lt.mpr (le_of_lt hy))
  have habs : |θ - θ'| = θ' - θ := by
    rw [abs_sub_comm]
    exact abs_of_nonneg (by linarith [tolMerge_pos])
  rw [habs]
  exact ⟨by linarith, by linarith⟩

/-- A wrapping band `[start, 2π) ∪ [0, end]` with tolerance gaps on both sides
of a plain band is circularly separated from it. -/
lemma circSeparated_wrap_left {w y : IArc}
    (hw : w.endAngle < w.startAngle)
    (hy : y.startAngle < y.endAngle)
    (h1 : w.endAngle + tolMerge ≤ y.startAngle)
    (h2 : y.endAngle + tolMerge ≤ w.startAngle)
    (h3 : 0 ≤ w.endAngle)
    (h4 : w.startAngle + tolMerge ≤ TWO_PI) :
    circSeparated w y := by
  intro θ θ' hθ hθ'
  obtain ⟨hθ0, hθ2π, hθb⟩ := hθ
  obtain ⟨hθ'0, hθ'2π, hθ'b⟩ := hθ'
  have hyb : y.startAngle ≤ θ' ∧ θ' ≤ y.endAngle := by
    rcases hθ'b with h | h
    · exact ⟨h.2.1, h.2.2⟩
    · exact absurd h.1 (not_lt.mpr (le_of_lt hy))
  rcases hθb with h | h
  · exact absurd h.1 (not_le.mpr hw)
  · rcases h.2 with hθhigh | hθlow
    · have habs : |θ - θ'| = θ - θ' :=
        abs_of_nonneg (by linarith [tolMerge_pos])
      rw [habs]
      exact ⟨by linarith, by linarith [tolMerge_pos]⟩
    · have habs : |θ - θ'| = θ' - θ := by
        rw [abs_sub_comm]
        exact abs_of_nonneg (by linarith [tolMerge_pos])
      rw [habs]
      exact ⟨by linarith, by linarith [tolMerge_pos]⟩

/-- Under the sweep invariant at 2π, the output of the final seam check is
pairwise circularly separated (within the tolerance, seam included). -/
lemma finalSeam_separated (M : List IArc) (hInv : SweepInv M TWO_PI) :
    (finalSeamMerge M).Pairwise circSeparated := by
  obtain ⟨hchain, hlen, hend⟩ := hInv
  rcases M with _ | ⟨a, M1⟩
  · exact List.Pairwise.nil
  rcases M1 with _ | ⟨b, rest⟩
  · exact List.Pairwise.cons (fun y hy => absurd hy (List.not_mem_nil y))
      List.Pairwise.nil
  have hpair : (a :: b :: rest).Pairwise sepR :=
    chain_sep_pairwise _ (fun x hx => (hlen x hx).2) hchain
  have hLget : (a :: b :: rest).getLast? =
      some ((b :: rest).getLast (List.cons_ne_nil b rest)) := by
    rw [List.getLast?_cons_cons, List.getLast?_eq_getLast _ (List.cons_ne_nil b rest)]
  have hLend := hend _ hLget
  have hends := pairwise_sep_last_bound _ hpair (fun x hx => (hlen x hx).2) _ hLget
  have hstarts := pairwise_sep_head_bound _ hpair (fun x hx => (hlen x hx).2) a rfl
  have hamem : a ∈ a :: b :: rest := List.mem_cons_self _ _
  have hLmem := List.mem_of_mem_getLast? hLget
  unfold finalSeamMerge
  dsimp only
  split
  · -- seam-merge branch
    rename_i hcond
    have hrestdecomp : (b :: rest).dropLast ++ [(b :: rest).getLast
        (List.cons_ne_nil b rest)] = b :: rest :=
      List.dropLast_append_getLast (List.cons_ne_nil b rest)
    have hmembership : ∀ y ∈ (b :: rest).dropLast, y ∈ a :: b :: rest := by
      intro y hy
      exact List.mem_cons_of_mem a (List.mem_of_mem_dropLast hy)
    have hpa : ∀ z ∈ b :: rest, sepR a z := (List.pairwise_cons.mp hpair).1
    have hpbr : (b :: rest).Pairwise sepR := (List.pairwise_cons.mp hpair).2
    have hpbr2 : ((b :: rest).dropLast ++ [(b :: rest).getLast
        (List.cons_ne_nil b rest)]).Pairwise sepR := by
      rw [hrestdecomp]
      exact hpbr
    have hpmid := (List.pairwise_append.mp hpbr2).1
    have hmidL := fun x hx => (List.pairwise_append.mp hpbr2).2.2 x hx _
      (List.mem_cons_self _ _)
    have hLlen := hlen _ hLmem
    have halen := hlen a hamem
    refine List.Pairwise.cons ?_ ?_
    · intro y hy
      have hymem := hmembership y hy
      have hsay : sepR a y := hpa y (List.mem_of_mem_dropLast hy)
      have hsyL := hmidL y hy
      have hylen := hlen y hymem
      unfold sepR at hsay hsyL
      apply circSeparated_wrap_left
      · show (⟨a.circle, _, a.endAngle⟩ : IArc).endAngle <
          (⟨a.circle, _, a.endAngle⟩ : IArc).startAngle
        dsimp only
        linarith [tolMerge_pos, hylen.2]
      · exact by linarith [hylen.2, tolMerge_pos]
      · show a.endAngle + tolMerge ≤ y.startAngle
        exact hsay
      · exact hsyL
      · show (0 : ℝ) ≤ a.endAngle
        linarith [halen.1, halen.2, tolMerge_pos]
      · show ((b :: rest).getLast (List.cons_ne_nil b rest)).startAngle
          + tolMerge ≤ TWO_PI
        linarith [hLlen.2]
    · refine hpmid.imp_of_mem ?_
      intro x y hx hy hsep
      have hxlen := hlen x (hmembership x hx)
      have hylen := hlen y (hmembership y hy)
      have hsyL := hmidL y hy
      have hLlen2 := hLlen.2
      unfold sepR at hsyL
      apply circSeparated_of_bands
      · linarith [hxlen.2, tolMerge_pos]
      · linarith [hylen.2, tolMerge_pos]
      · exact hsep
      · linarith [hxlen.1, tolMerge_pos]
  · -- identity branch
    rename_i hcond
    refine hpair.imp_of_mem ?_
    intro x y hx hy hsep
    have hxlen := hlen x hx
    have hylen := hlen y hy
    apply circSeparated_of_bands
    · linarith [hxlen.2, tolMerge_pos]
    · linarith [hylen.2, tolMerge_pos]
    · exact hsep
    · have h1 := hends y hy
      have h2 := hstarts x hx
      have ha0 := (hlen a hamem).1
      rw [not_and_or, not_lt, not_lt] at hcond
      rcases hcond with h | h
      · rw [abs_sub_comm, abs_of_nonneg (by linarith)] at h
        linarith
      · linarith

/-- The sorted event list is sorted by angle. -/
lemma mergeSort_angle_sorted (l : List IEventPoint) :
    (l.mergeSort fun x y => decide (x.angle ≤ y.angle)).Pairwise
      fun x y => x.angle ≤ y.angle := by
  have htrans : ∀ a b c : IEventPoint,
      (fun x y : IEventPoint => decide (x.angle ≤ y.angle)) a b = true →
      (fun x y : IEventPoint => decide (x.angle ≤ y.angle)) b c = true →
      (fun x y : IEventPoint => decide (x.angle ≤ y.angle)) a c = true := by
    intro a b c hab hbc
    simp only [decide_eq_true_eq] at hab hbc ⊢
    exact le_trans hab hbc
  have htotal : ∀ a b : IEventPoint,
      ((fun x y : IEventPoint => decide (x.angle ≤ y.angle)) a b ||
       (fun x y : IEventPoint => decide (x.angle ≤ y.angle)) b a) = true := by
    intro a b
    simp only [Bool.or_eq_true, decide_eq_true_eq]
    exact le_total a.angle b.angle
  refine (List.sorted_mergeSort htrans htotal l).imp ?_
  intro a b h
  simpa using h

/-- Every event angle is normalized into `[0, 2π)`. -/
lemma eventsOf_angle_bounds (arcs : List IArc) :
    ∀ x ∈ eventsOf arcs, 0 ≤ x.angle ∧ x.angle < TWO_PI := by
  intro x hx
  unfold eventsOf at hx
  rw [List.mem_flatMap] at hx
  obtain ⟨a, _, hxa⟩ := hx
  simp only [List.mem_cons, List.not_mem_nil, or_false] at hxa
  rcases hxa with rfl | rfl
  · exact jsNormalize_mem_Ico _
  · exact jsNormalize_mem_Ico _

/-- The merger's output is always pairwise circularly separated, for every
input whatsoever. -/
lemma joinOverlappingArcs_separated (arcs : List IArc) :
    (joinOverlappingArcs arcs).Pairwise circSeparated := by
  by_cases hlen1 : arcs.length ≤ 1
  · unfold joinOverlappingArcs
    rw [if_pos hlen1]
    rcases arcs with _ | ⟨a, _ | ⟨b, t⟩⟩
    · exact List.Pairwise.nil
    · exact List.Pairwise.cons (fun y hy => absurd hy (List.not_mem_nil y))
        List.Pairwise.nil
    · exact absurd hlen1 (by simp only [List.length_cons]; omega)
  · obtain ⟨a0, t, rfl⟩ := @List.exists_cons_of_ne_nil _ arcs
      (fun hx => hlen1 (by rw [hx]; decide))
    unfold joinOverlappingArcs
    rw [if_neg hlen1]
    dsimp only
    set pts := (eventsOf (a0 :: t)).mergeSort fun x y => decide (x.angle ≤ y.angle)
      with hpts
    have hsorted : pts.Pairwise fun x y => x.angle ≤ y.angle :=
      mergeSort_angle_sorted _
    have hbounds : ∀ x ∈ pts, 0 ≤ x.angle ∧ x.angle < TWO_PI := by
      intro x hx
      exact eventsOf_angle_bounds _ x ((List.mergeSort_perm _ _).mem_iff.mp hx)
    have hrun := sweepEvents_inv a0.circle pts 0 ((wrapCount (a0 :: t) : ℕ) : ℤ) []
      hsorted (fun ev hev => (hbounds ev hev).1) (le_refl 0) (sweepInv_nil 0)
    have hfinlt : finalAngleOf pts 0 < TWO_PI :=
      finalAngleOf_lt pts 0 (fun ev hev => (hbounds ev hev).2) twoPi_pos
    by_cases hc2 : 0 < (sweepEvents a0.circle pts 0 ((wrapCount (a0 :: t) : ℕ) : ℤ)
          []).2 ∧
        (match pts.getLast? with
          | some p => p.angle
          | none => (0 : ℝ)) + tolMerge < TWO_PI
    · rw [if_pos hc2]
      exact finalSeam_separated _ (pushOrExtend_inv a0.circle hrun.1 hrun.2 hc2.2)
    · rw [if_neg hc2]
      exact finalSeam_separated _ (sweepInv_mono hrun.1 (le_of_lt hfinlt))

/-- The emit step only creates arcs tagged with the sweep's circle or an
existing tag. -/
lemma pushOrExtend_circle (c k : CircleRef) (hck : c = k) (merged : List IArc)
    (prev angle : ℝ) (h : ∀ m ∈ merged, m.circle = k) :
    ∀ b ∈ pushOrExtend c merged prev angle, b.circle = k := by
  unfold pushOrExtend
  cases hm : merged.getLast? with
  | none =>
    intro b hb
    rcases List.mem_append.mp hb with h2 | h2
    · exact h b h2
    · simp only [List.mem_cons, List.not_mem_nil, or_false] at h2
      subst h2
      exact hck
  | some last =>
    dsimp only
    intro b hb
    split at hb
    · rcases List.mem_append.mp hb with h2 | h2
      · exact h b (List.mem_of_mem_dropLast h2)
      · simp only [List.mem_cons, List.not_mem_nil, or_false] at h2
        subst h2
        exact h last (List.mem_of_mem_getLast? hm)
    · rcases List.mem_append.mp hb with h2 | h2
      · exact h b h2
      · simp only [List.mem_cons, List.not_mem_nil, or_false] at h2
        subst h2
        exact hck

/-- All arcs built by the sweep carry the sweep's circle tag. -/
lemma sweepEvents_circle (c k : CircleRef) (hck : c = k) :
    ∀ (events : List IEventPoint) (prev : ℝ) (active : ℤ) (merged : List IArc),
    (∀ m ∈ merged, m.circle = k) →
    ∀ b ∈ (sweepEvents c events prev active merged).1, b.circle = k := by
  intro events
  induction events with
  | nil =>
    intro prev active merged h b hb
    rw [sweepEvents_nil] at hb
    exact h b hb
  | cons p rest ih =>
    intro prev active merged h b hb
    rw [sweepEvents_cons] at hb
    by_cases hc : 0 < active ∧ prev + tolMerge < p.angle
    · rw [if_pos hc] at hb
      exact ih _ _ _ (pushOrExtend_circle c k hck merged prev p.angle h) b hb
    · rw [if_neg hc] at hb
      exact ih _ _ _ h b hb

/-- The final seam check preserves circle tags. -/
lemma finalSeamMerge_circle (k : CircleRef) (l : List IArc)
    (h : ∀ a ∈ l, a.circle = k) : ∀ b ∈ finalSeamMerge l, b.circle = k := by
  rcases l with _ | ⟨a, _ | ⟨b0, rest⟩⟩
  · exact h
  · exact h
  · unfold finalSeamMerge
    dsimp only
    split
    · intro b hb
      rcases List.mem_cons.mp hb with rfl | hb2
      · exact h a (List.mem_cons_self a _)
      · exact h _ (List.mem_cons_of_mem a (List.mem_of_mem_dropLast hb2))
    · exact h

/-- The merger preserves a uniform circle tag. -/
lemma joinOverlappingArcs_circle (k : CircleRef) (l : List IArc)
    (h : ∀ a ∈ l, a.circle = k) : ∀ b ∈ joinOverlappingArcs l, b.circle = k := by
  by_cases hlen1 : l.length ≤ 1
  · unfold joinOverlappingArcs
    rw [if_pos hlen1]
    exact h
  · obtain ⟨a0, t, rfl⟩ := @List.exists_cons_of_ne_nil _ l
      (fun hx => hlen1 (by rw [hx]; decide))
    unfold joinOverlappingArcs
    rw [if_neg hlen1]
    dsimp only
    have hck : a0.circle = k := h a0 (List.mem_cons_self a0 t)
    apply finalSeamMerge_circle
    split
    · apply pushOrExtend_circle _ _ hck
      exact sweepEvents_circle _ _ hck _ _ _ _
        (fun m hm => absurd hm (List.not_mem_nil m))
    · exact sweepEvents_circle _ _ hck _ _ _ _
        (fun m hm => absurd hm (List.not_mem_nil m))

/-- One insertion into the per-circle grouping preserves well-formedness:
keys stay pairwise distinct, every bucket holds arcs of its key, and any key
is the inserted arc's circle or an old key. -/
lemma insertByCircle_wf : ∀ (m : List (CircleRef × List IArc)) (a : IArc),
    ((m.Pairwise fun g h => g.1 ≠ h.1) ∧ ∀ g ∈ m, ∀ x ∈ g.2, x.circle = g.1) →
    (((insertByCircle m a).Pairwise fun g h => g.1 ≠ h.1) ∧
      ∀ g ∈ insertByCircle m a, ∀ x ∈ g.2, x.circle = g.1) ∧
    ∀ g ∈ insertByCircle m a, g.1 = a.circle ∨ ∃ g' ∈ m, g.1 = g'.1 := by
  intro m
  induction m with
  | nil =>
    intro a hwf
    refine ⟨⟨List.Pairwise.cons (fun y hy => absurd hy (List.not_mem_nil y))
      List.Pairwise.nil, ?_⟩, ?_⟩
    · intro g hg x hx
      simp only [insertByCircle, List.mem_cons, List.not_mem_nil, or_false] at hg
      subst hg
      simp only [List.mem_cons, List.not_mem_nil, or_false] at hx
      subst hx
      rfl
    · intro g hg
      simp only [insertByCircle, List.mem_cons, List.not_mem_nil, or_false] at hg
      subst hg
      exact Or.inl rfl
  | cons p rest ih =>
    intro a hwf
    obtain ⟨hp1, hp2⟩ := List.pairwise_cons.mp hwf.1
    have hwfr : (rest.Pairwise fun g h => g.1 ≠ h.1) ∧
        ∀ g ∈ rest, ∀ x ∈ g.2, x.circle = g.1 :=
      ⟨hp2, fun g hg => hwf.2 g (List.mem_cons_of_mem p hg)⟩
    rcases p with ⟨c, l⟩
    unfold insertByCircle
    split
    · rename_i hc
      refine ⟨⟨List.Pairwise.cons hp1 hp2, ?_⟩, ?_⟩
      · intro g hg x hx
        rcases List.mem_cons.mp hg with rfl | hg2
        · rcases List.mem_append.mp hx with h2 | h2
          · exact hwf.2 (c, l) (List.mem_cons_self _ _) x h2
          · simp only [List.mem_cons, List.not_mem_nil, or_false] at h2
            subst h2
            exact hc.symm
        · exact hwf.2 g (List.mem_cons_of_mem _ hg2) x hx
      · intro g hg
        rcases List.mem_cons.mp hg with rfl | hg2
        · exact Or.inl hc
        · exact Or.inr ⟨g, List.mem_cons_of_mem _ hg2, rfl⟩
    · rename_i hc
      obtain ⟨⟨hq1, hq2⟩, hq3⟩ := ih a hwfr
      refine ⟨⟨List.Pairwise.cons ?_ hq1, ?_⟩, ?_⟩
      · intro y hy
        rcases hq3 y hy with h2 | ⟨g', hg', h2⟩
        · intro hcy
          exact hc (hcy.trans h2)
        · intro hcy
          exact hp1 g' hg' (hcy.trans h2)
      · intro g hg x hx
        rcases List.mem_cons.mp hg with rfl | hg2
        · exact hwf.2 (c, l) (List.mem_cons_self _ _) x hx
        · exact hq2 g hg2 x hx
      · intro g hg
        rcases List.mem_cons.mp hg with rfl | hg2
        · exact Or.inr ⟨(c, l), List.mem_cons_self _ _, rfl⟩
        · rcases hq3 g hg2 with h2 | ⟨g', hg', h2⟩
          · exact Or.inl h2
          · exact Or.inr ⟨g', List.mem_cons_of_mem _ hg', h2⟩

/-- The per-circle grouping is well-formed: distinct keys, each bucket holds
arcs of its key. -/
lemma groupByCircle_wf (arcs : List IArc) :
    ((groupByCircle arcs).Pairwise fun g h => g.1 ≠ h.1) ∧
      ∀ g ∈ groupByCircle arcs, ∀ x ∈ g.2, x.circle = g.1 := by
  unfold groupByCircle
  suffices h : ∀ (m : List (CircleRef × List IArc)),
      ((m.Pairwise fun g h => g.1 ≠ h.1) ∧ ∀ g ∈ m, ∀ x ∈ g.2, x.circle = g.1) →
      ((arcs.foldl insertByCircle m).Pairwise fun g h => g.1 ≠ h.1) ∧
        ∀ g ∈ arcs.foldl insertByCircle m, ∀ x ∈ g.2, x.circle = g.1 by
    exact h [] ⟨List.Pairwise.nil, fun g hg => absurd hg (List.not_mem_nil g)⟩
  induction arcs with
  | nil => intro m hm; exact hm
  | cons a rest ih =>
    intro m hm
    rw [List.foldl_cons]
    exact ih _ (insertByCircle_wf m a hm).1

/-- Two output arcs of `joinIntersections` on the same circle are circularly
separated. -/
lemma joinIntersections_separated (arcs : List IArc) :
    (joinIntersections arcs).Pairwise
      fun x y => x.circle = y.circle → circSeparated x y := by
  unfold joinIntersections
  split
  · exact List.Pairwise.nil
  · rw [List.pairwise_flatten]
    obtain ⟨hw1, hw2⟩ := groupByCircle_wf arcs
    constructor
    · intro l' hl'
      rw [List.mem_map] at hl'
      obtain ⟨g, hg, rfl⟩ := hl'
      exact (joinOverlappingArcs_separated g.2).imp
        fun {x y} h (_ : x.circle = y.circle) => h
    · rw [List.pairwise_map]
      refine hw1.imp_of_mem ?_
      intro g h hg hh hne x hx y hy hxy
      have hxc := joinOverlappingArcs_circle g.1 g.2 (hw2 g hg) x hx
      have hyc := joinOverlappingArcs_circle h.1 h.2 (hw2 h hh) y hy
      exact absurd (by rw [← hxc, hxy, hyc]) hne

/-- C3 (amended): the separation half of the claim holds universally — for
every input, no two output arcs of `joinOverlappingArcs` overlap or touch
within the tolerance, including across the 0/2π seam; through
`joinIntersections` the same holds per owning circle, and therefore for the
live intersection set of every freshly constructed board.  (The coverage half
of the claim is false: see the counterexample.) -/
theorem c3_merger_separation_invariant :
    (∀ arcs : List IArc, (joinOverlappingArcs arcs).Pairwise circSeparated) ∧
    (∀ arcs : List IArc, (joinIntersections arcs).Pairwise
      fun x y => x.circle = y.circle → circSeparated x y) ∧
    ∀ data : List CircleRef, (mkBoard data).intersections.Pairwise
      fun x y => x.circle = y.circle → circSeparated x y := by
  refine ⟨joinOverlappingArcs_separated, joinIntersections_separated, ?_⟩
  intro data
  exact joinIntersections_separated (rawPairArcs data)

/-- C3 counterexample (coverage): the input {[0.5, 0.5+1e-10], [4, 5]} on one
circle covers the angle 0.5, but the merger's output does not — the output
does not cover the same angular region as the input. -/
theorem c3_counterexample_coverage_lost :
    joinOverlappingArcs
        [⟨⟨1, ⟨0, 0⟩, 40⟩, 1/2, 1/2 + 1e-10⟩, ⟨⟨1, ⟨0, 0⟩, 40⟩, 4, 5⟩] =
      [⟨⟨1, ⟨0, 0⟩, 40⟩, 4, 5⟩] ∧
    inArcRegion ⟨⟨1, ⟨0, 0⟩, 40⟩, 1/2, 1/2 + 1e-10⟩ (1/2) ∧
    ∀ b ∈ joinOverlappingArcs
        [⟨⟨1, ⟨0, 0⟩, 40⟩, 1/2, 1/2 + 1e-10⟩, ⟨⟨1, ⟨0, 0⟩, 40⟩, 4, 5⟩],
      ¬ inArcRegion b (1/2) := by
  have he : joinOverlappingArcs
      [⟨⟨1, ⟨0, 0⟩, 40⟩, 1/2, 1/2 + 1e-10⟩, ⟨⟨1, ⟨0, 0⟩, 40⟩, 4, 5⟩] =
      [⟨⟨1, ⟨0, 0⟩, 40⟩, 4, 5⟩] := by
    apply joinOverlappingArcs_drops_tiny
    · norm_num
    · norm_num
    · unfold tolMerge; norm_num
    · norm_num
    · unfold tolMerge; norm_num
    · linarith [twoPi_gt]
  refine ⟨he, ⟨by norm_num, by linarith [twoPi_gt], Or.inl ?_⟩, ?_⟩
  · refine ⟨by norm_num, by norm_num, by norm_num⟩
  · intro b hb
    rw [he] at hb
    simp only [List.mem_cons, List.not_mem_nil, or_false] at hb
    subst hb
    intro hreg
    obtain ⟨_, _, hcase⟩ := hreg
    rcases hcase with h | h
    · have h2 := h.2.1
      dsimp only at h2
      norm_num at h2
    · have h2 := h.1
      dsimp only at h2
      norm_num at h2
